import Mathlib

/-!
Verification development for the RAG pipeline of src/src/rag/rag.service.ts.

Strings manipulated by the pipeline are modelled as lists of characters (`Text`), so that
every operation is executable and decidable. The recursive character text splitter is the
algorithm of langchain's RecursiveCharacterTextSplitter as the service configures it
(fromLanguage html, chunkSize 500, chunkOverlap 100, the default keepSeparator = true);
the vector store, language model and HTTP controller are external to src/ and are modelled
where a claim needs them, as noted on each definition.
-/

set_option maxHeartbeats 1000000
set_option maxRecDepth 4000

namespace Rag

/-- Program text (a JavaScript string) modelled as a list of characters. -/
abbrev Text := List Char

/-- Sum of the lengths of a list of texts. -/
def sumLen (l : List Text) : Nat := (l.map List.length).sum

/-- Whitespace test for JavaScript String.prototype.trim (the common whitespace
characters; the full JS set also has exotic Unicode spaces no claim depends on). -/
def isJsSpace (c : Char) : Bool :=
  c == ' ' || c == '\t' || c == '\n' || c == '\r' || c == '\x0b' || c == '\x0c'

/-- Model of JavaScript String.prototype.trim: drop whitespace at both ends. -/
def jsTrim (t : Text) : Text :=
  ((t.dropWhile isJsSpace).reverse.dropWhile isJsSpace).reverse

/-- The contiguous segment of a text from position a (inclusive) to b (exclusive). -/
def seg (t : Text) (a b : Nat) : Text := (t.drop a).take (b - a)

/-- Does sep occur at the start of t. -/
def leads : Text → Text → Bool
  | [], _ => true
  | _ :: _, [] => false
  | c :: cs, d :: ds => c == d && leads cs ds

/-- Does sep occur anywhere in t (model of JavaScript String.includes). -/
def occurs (sep : Text) : Text → Bool
  | [] => leads sep []
  | t@(_ :: rest) => leads sep t || occurs sep rest

/-- Auxiliary for splitBefore: walk the text holding the current piece reversed in acc.
A zero-width boundary right after the previous boundary does not split (JavaScript
String.split never yields empty pieces from a zero-width lookahead match). -/
def splitBeforeAux (sep : Text) : Text → Text → List Text
  | [], acc => [acc.reverse]
  | c :: rest, acc =>
    if acc.isEmpty then splitBeforeAux sep rest [c]
    else if leads sep (c :: rest) then acc.reverse :: splitBeforeAux sep rest [c]
    else splitBeforeAux sep rest (c :: acc)

/-- Model of JavaScript text.split(lookahead regex of sep): split before each occurrence
of sep, keeping the separator attached to the following piece. -/
def splitBefore (sep : Text) (t : Text) : List Text := splitBeforeAux sep t []

/-- Model of TextSplitter.splitOnSeparator as the program configures it: keepSeparator is
true (RecursiveCharacterTextSplitter's default, which fromLanguage does not override), so
a non-empty separator splits with a lookahead that keeps the separator on the following
piece; an empty separator splits into single characters. Empty pieces are filtered out. -/
def splitOnSeparator (sep : Text) (t : Text) : List Text :=
  (if sep.isEmpty then t.map (fun c => [c]) else splitBefore sep t).filter
    (fun s => !s.isEmpty)

/-- The separator-choice loop of RecursiveCharacterTextSplitter._splitText: take the first
separator that is empty (no remaining separators recorded) or occurs in the text (the
remaining separators are those after it); dflt is the last separator of the list, used
when the loop finds neither. -/
def chooseSepAux (t : Text) (dflt : Text) : List Text → Text × Option (List Text)
  | [] => (dflt, none)
  | s :: rest =>
    if s.isEmpty then ([], none)
    else if occurs s t then (s, some rest)
    else chooseSepAux t dflt rest

/-- Separator choice of _splitText over the whole separator list. -/
def chooseSep (seps : List Text) (t : Text) : Text × Option (List Text) :=
  chooseSepAux t (seps.getLastD []) seps

/-- Termination measure for the optional remaining-separator list. -/
def nsMeasure : Option (List Text) → Nat
  | none => 0
  | some ns => ns.length + 1

theorem chooseSepAux_measure (t dflt : Text) :
    ∀ l : List Text, nsMeasure (chooseSepAux t dflt l).2 ≤ l.length := by
  intro l
  induction l with
  | nil => simp [chooseSepAux, nsMeasure]
  | cons s rest ih =>
    simp only [chooseSepAux]
    split
    · simp [nsMeasure]
    · split
      · simp [nsMeasure]
      · exact le_trans ih (by simp)

theorem chooseSep_measure (seps : List Text) (t : Text) :
    nsMeasure (chooseSep seps t).2 ≤ seps.length :=
  chooseSepAux_measure ..

/-- Model of the while loop inside TextSplitter.mergeSplits: pop splits from the front of
currentDoc while the retained total exceeds chunkOverlap, or the next split of length len
would not fit within chunkSize and something is retained. -/
def shiftLoop (cs co sepLen len : Nat) : List Text → Nat → List Text × Nat
  | [], total => ([], total)
  | c :: cd, total =>
    if total > co ∨ (total + len + (cd.length + 1) * sepLen > cs ∧ total > 0) then
      shiftLoop cs co sepLen len cd (total - c.length)
    else (c :: cd, total)

/-- State of the mergeSplits loop: emitted docs, current window of splits, running total
of the window's lengths. -/
structure MergeSt where
  docs : List Text
  cd : List Text
  total : Nat

/-- Model of TextSplitter.joinDocs: join with the separator and trim; the null result for
an empty join is modelled by the caller checking for the empty text. -/
def joinDocs (sep : Text) (l : List Text) : Text := jsTrim (List.intercalate sep l)

/-- One iteration of the mergeSplits for-loop before the push of the current split: if
adding the split would exceed chunkSize, emit the joined current window (unless it trims
to nothing) and shift the window. -/
def mergeFlush (cs co : Nat) (sep : Text) (st : MergeSt) (len : Nat) : MergeSt :=
  if st.total + len + st.cd.length * sep.length > cs then
    if st.cd.isEmpty then st
    else
      let doc := joinDocs sep st.cd
      let docs := if doc.isEmpty then st.docs else st.docs ++ [doc]
      let p := shiftLoop cs co sep.length len st.cd st.total
      ⟨docs, p.1, p.2⟩
  else st

/-- The mergeSplits for-loop over the splits. -/
def mergeGo (cs co : Nat) (sep : Text) : List Text → MergeSt → MergeSt
  | [], st => st
  | d :: rest, st =>
    let st1 := mergeFlush cs co sep st d.length
    mergeGo cs co sep rest ⟨st1.docs, st1.cd ++ [d], st1.total + d.length⟩

/-- Model of TextSplitter.mergeSplits: run the loop from the empty state, then emit the
final window (unless it trims to nothing). -/
def mergeSplits (cs co : Nat) (sep : Text) (splits : List Text) : List Text :=
  let st := mergeGo cs co sep splits ⟨[], [], 0⟩
  let doc := joinDocs sep st.cd
  if doc.isEmpty then st.docs else st.docs ++ [doc]

/-- The goodSplits accumulator loop of _splitText, as a grouping: maximal runs of splits
shorter than chunkSize (the goodSplits runs, flushed as one merge each) separated by the
oversized splits, in order. -/
def groupSplits (cs : Nat) : List Text → List (List Text ⊕ Text)
  | [] => []
  | s :: rest =>
    if s.length < cs then
      match groupSplits cs rest with
      | Sum.inl run :: out => Sum.inl (s :: run) :: out
      | out => Sum.inl [s] :: out
    else Sum.inr s :: groupSplits cs rest

/-- Model of RecursiveCharacterTextSplitter._splitText: choose the separator, split, then
walk the splits: each run of splits shorter than chunkSize is merged and emitted (the
goodSplits accumulator), and each oversized split is recursed into with the remaining
separators, or pushed raw when none remain. The merge separator is the empty text because
keepSeparator is true in the program's configuration. -/
def splitTextRec (cs co : Nat) (seps : List Text) (text : Text) : List Text :=
  (groupSplits cs (splitOnSeparator (chooseSep seps text).1 text)).flatMap fun g =>
    match g with
    | Sum.inl run => mergeSplits cs co [] run
    | Sum.inr s =>
      match hc : (chooseSep seps text).2 with
      | none => [s]
      | some ns => splitTextRec cs co ns s
termination_by seps.length
decreasing_by
  have h := chooseSep_measure seps text
  rw [hc] at h
  simp only [nsMeasure] at h
  omega

/-- Chunk size configured in splitDocuments (rag.service.ts line 77). -/
def chunkSize : Nat := 500

/-- Chunk overlap configured in splitDocuments (rag.service.ts line 78). -/
def chunkOverlap : Nat := 100

/-- Separator hierarchy of the splitter the program constructs:
RecursiveCharacterTextSplitter.fromLanguage is called with language html (rag.service.ts
line 76), whose separators are HTML tag openings with a final empty-text fallback. -/
def htmlSeparators : List Text :=
  ["<body>".toList, "<div>".toList, "<p>".toList, "<br>".toList, "<li>".toList,
   "<h1>".toList, "<h2>".toList, "<h3>".toList, "<h4>".toList, "<h5>".toList,
   "<h6>".toList, "<span>".toList, "<table>".toList, "<tr>".toList, "<td>".toList,
   "<th>".toList, "<ul>".toList, "<ol>".toList, "<header>".toList, "<footer>".toList,
   "<nav>".toList, "<head>".toList, "<style>".toList, "<script>".toList, "<meta>".toList,
   "<title>".toList, []]

/-- The chunker applied to one document text: the html-language recursive splitter with
chunkSize 500 and chunkOverlap 100 (rag.service.ts lines 75-84). -/
def htmlSplitText (t : Text) : List Text :=
  splitTextRec chunkSize chunkOverlap htmlSeparators t

/-- Follows the spec's words, for comparison with the code's splitter (claim C2): the same
recursive splitting algorithm but with structural boundaries in the order paragraph,
sentence, word, character. -/
def specBoundarySeparators : List Text := ["\n\n".toList, ". ".toList, " ".toList, []]

/-- The chunker the spec describes, over one document text. -/
def specSplitText (t : Text) : List Text :=
  splitTextRec chunkSize chunkOverlap specBoundarySeparators t

/-- Metadata values attached to documents: serialized scalars, or a raw temporal
(JavaScript Date) object. A date carries the string its toISOString method renders. -/
inductive MetaVal
  | str (s : String)
  | num (n : Int)
  | date (iso : String)
deriving DecidableEq

/-- A langchain Document: page content plus a metadata record. -/
structure Doc where
  pageContent : Text
  metadata : List (String × MetaVal)
deriving DecidableEq

/-- Model of splitDocuments (rag.service.ts lines 75-84): each document's text is split by
the html-language splitter; each chunk inherits the source metadata (the loc line-range
langchain also adds is not modelled; no claim concerns it). -/
def splitDocuments (docs : List Doc) : List Doc :=
  docs.flatMap (fun d => (htmlSplitText d.pageContent).map (fun t => ⟨t, d.metadata⟩))

/-- Model of the metadata sanitization in vectorizeDocuments (rag.service.ts lines
113-118): only the field named date is inspected; a raw Date stored there is replaced by
its toISOString string. Every other field is passed through unchanged. -/
def sanitizeDoc (d : Doc) : Doc :=
  ⟨d.pageContent,
   d.metadata.map (fun kv =>
     match kv with
     | (k, MetaVal.date iso) =>
       if k = "date" then (k, MetaVal.str iso) else (k, MetaVal.date iso)
     | kv => kv)⟩

/-- The batching loop of vectorizeDocuments, with explicit fuel so that the recursion is
structural; each round consumes at least one document, so any fuel of at least the list
length yields the loop's behaviour. -/
def batchesGo : Nat → List Doc → List (List Doc)
  | _, [] => []
  | 0, _ :: _ => []
  | fuel + 1, d :: rest => (d :: rest).take 100 :: batchesGo fuel ((d :: rest).drop 100)

/-- The batching loop of vectorizeDocuments (rag.service.ts lines 110-111): consecutive
slices of 100 documents. -/
def batches100 (l : List Doc) : List (List Doc) := batchesGo l.length l

/-- Terminal status for an empty chunk list (rag.service.ts line 88). -/
def emptyInputStatus : String := "⚠️ No documents to vectorize."

/-- Terminal status when the index already holds records — the skipped-already-populated
outcome (rag.service.ts lines 100-103). -/
def skippedStatus : String := "✅ Index ready."

/-- Terminal status after every batch was embedded and upserted
(rag.service.ts line 126). -/
def completedStatus : String := "✅ Done."

/-- Result of the index populator: its terminal status and the sequence of batch upsert
calls made to the vector store (PineconeStore.fromDocuments, rag.service.ts line 120). -/
structure VectorizeResult where
  status : String
  upserts : List (List Doc)
deriving DecidableEq

/-- Model of vectorizeDocuments (rag.service.ts lines 87-127). totalRecordCount is the
record count the vector store reports, none when the field is undefined (the code reads
stats.totalRecordCount with a fallback of 0). -/
def vectorizeDocuments (docs : List Doc) (totalRecordCount : Option Nat) :
    VectorizeResult :=
  if docs.isEmpty then ⟨emptyInputStatus, []⟩
  else if totalRecordCount.getD 0 > 0 then ⟨skippedStatus, []⟩
  else ⟨completedStatus, (batches100 docs).map (fun b => b.map sanitizeDoc)⟩

/-- The separator joining retrieved passages in the context (rag.service.ts line 289). -/
def contextSep : Text := "\n\n".toList

/-- The passages surviving the retrieval chain's cleanup (rag.service.ts lines 285-288):
each retrieved text trimmed, keeping only those longer than 30 characters. -/
def keptPassages (texts : List Text) : List Text :=
  (texts.map jsTrim).filter (fun t => t.length > 30)

/-- Model of the retrieval chain's context assembly (rag.service.ts lines 282-290): the
surviving passages joined with a blank-line separator, in retrieval order. -/
def assembleContext (texts : List Text) : Text :=
  List.intercalate contextSep (keptPassages texts)

/-- Chat history messages (HumanMessage / AIMessage of rag.service.ts). -/
inductive ChatMsg
  | human (content : String)
  | ai (content : String)
deriving DecidableEq

/-- External-collaborator snapshot for one chatWithHistory call: the record count the
vector store reports, the documents loadDocuments yields, the passage texts the retriever
returns for this query, and the outcome of the language-model generation step (an error
models the generation chain throwing). -/
structure ChatEnv where
  totalRecordCount : Option Nat
  loadedDocs : List Doc
  retrieved : List Text
  genResult : Except String String

/-- The input assembled for the generation chain (rag.service.ts lines 292-306):
question, prior chat history and retrieved context. -/
structure GenInput where
  question : String
  chat_history : List ChatMsg
  context : Text
deriving DecidableEq

/-- Observable outcome of one chatWithHistory call: the bootstrap population run if one
happened, the generation-chain input, the generation result, and the session history
after the call. -/
structure ChatCall where
  bootstrap : Option VectorizeResult
  genInput : GenInput
  result : Except String String
  newHistory : List ChatMsg

/-- Model of chatWithHistory (rag.service.ts lines 150-312): check the index record
count and, if zero, run load → split → vectorize; assemble the generation input from the
question, the current history and the retrieved context; on generation success append the
human question then the answer to the history, on failure the exception propagates and
the history is left untouched. -/
def chatWithHistory (env : ChatEnv) (hist : List ChatMsg) (question : String) : ChatCall :=
  let boot :=
    if env.totalRecordCount.getD 0 = 0 then
      some (vectorizeDocuments (splitDocuments env.loadedDocs) env.totalRecordCount)
    else none
  let gi : GenInput := ⟨question, hist, assembleContext env.retrieved⟩
  match env.genResult with
  | Except.error e => ⟨boot, gi, Except.error e, hist⟩
  | Except.ok a => ⟨boot, gi, Except.ok a, hist ++ [ChatMsg.human question, ChatMsg.ai a]⟩

/-- Iterated chatWithHistory calls threading the session history. -/
def runSessionFrom : List (String × ChatEnv) → List ChatMsg → List ChatMsg
  | [], hist => hist
  | (q, env) :: rest, hist => runSessionFrom rest (chatWithHistory env hist q).newHistory

/-- A session of answer() calls starting from the empty history. -/
def runSession (calls : List (String × ChatEnv)) : List ChatMsg := runSessionFrom calls []

/-- Model of resetChatHistory (rag.service.ts lines 315-319): the history becomes empty
and a fixed message is returned. -/
def resetChatHistory (_hist : List ChatMsg) : List ChatMsg × String :=
  ([], "Chat history cleared.")

/-- Strict human/assistant alternation in pairs, starting with a human message. -/
def alternating : List ChatMsg → Bool
  | [] => true
  | ChatMsg.human _ :: ChatMsg.ai _ :: rest => alternating rest
  | _ => false

/-- Modelled from the spec: the HTTP controller (rag.controller.ts) is referenced by
src/src/app.module.ts but its code is not under src/. Spec section 6: an empty or missing
question short-circuits to a fixed prompt-for-input message without invoking the
pipeline; otherwise the service's chatWithHistory runs. The Bool records whether the
pipeline was invoked; the two message literals are not fixed by the spec. -/
def askMeController (env : ChatEnv) (hist : List ChatMsg) (question : Option String) :
    String × List ChatMsg × Bool :=
  match question with
  | none => ("Please ask a question.", hist, false)
  | some q =>
    if q = "" then ("Please ask a question.", hist, false)
    else
      let call := chatWithHistory env hist q
      (match call.result with
       | Except.ok a => a
       | Except.error _ => "Something went wrong.",
       call.newHistory, true)

/-- The fixed retrieval k configured in createRetriever (rag.service.ts line 145). -/
def retrieverK : Nat := 6

/-- A retrieved passage: text, similarity score and original metadata (spec section 3,
RetrievedPassage). Scores are modelled as rationals; only their order matters. -/
structure Passage where
  text : String
  score : ℚ
  metadata : List (String × MetaVal)
deriving DecidableEq

/-- Insertion into a descending-by-score list. -/
def insertDesc (p : Passage) : List Passage → List Passage
  | [] => [p]
  | q :: rest => if q.score ≤ p.score then p :: q :: rest else q :: insertDesc p rest

/-- Sort passages by descending similarity score. -/
def sortByScoreDesc : List Passage → List Passage
  | [] => []
  | p :: rest => insertDesc p (sortByScoreDesc rest)

/-- Modelled from the spec: the vector store's queryTopK contract (spec section 6) — the
Pinecone-backed store is an external collaborator, its code is not under src/. Given the
stored passages scored against the current query, return the k most similar, ordered by
descending score. -/
def queryTopK (scored : List Passage) (k : Nat) : List Passage :=
  (sortByScoreDesc scored).take k

/-! Supporting lemmas. -/

theorem batchesGo_flatten : ∀ (fuel : Nat) (l : List Doc), l.length ≤ fuel →
    (batchesGo fuel l).flatten = l := by
  intro fuel
  induction fuel with
  | zero =>
    intro l hl
    have : l = [] := List.eq_nil_of_length_eq_zero (Nat.le_zero.mp hl)
    subst this
    rfl
  | succ n ih =>
    intro l hl
    match l with
    | [] => rfl
    | d :: rest =>
      have hdrop : ((d :: rest).drop 100).length ≤ n := by
        simp only [List.length_drop, List.length_cons]
        simp only [List.length_cons] at hl
        omega
      calc (batchesGo (n + 1) (d :: rest)).flatten
          = (d :: rest).take 100 ++ (batchesGo n ((d :: rest).drop 100)).flatten := rfl
        _ = (d :: rest).take 100 ++ (d :: rest).drop 100 := by rw [ih _ hdrop]
        _ = d :: rest := List.take_append_drop _ _

theorem batches100_flatten (l : List Doc) : (batches100 l).flatten = l :=
  batchesGo_flatten l.length l le_rfl

theorem length_dropWhile_le {α : Type} (p : α → Bool) :
    ∀ l : List α, (l.dropWhile p).length ≤ l.length
  | [] => le_refl _
  | a :: l => by
    rw [List.dropWhile_cons]
    split
    · exact le_trans (length_dropWhile_le p l) (by simp)
    · exact le_refl _

theorem jsTrim_length_le (t : Text) : (jsTrim t).length ≤ t.length := by
  unfold jsTrim
  calc (((t.dropWhile isJsSpace).reverse.dropWhile isJsSpace).reverse).length
      = ((t.dropWhile isJsSpace).reverse.dropWhile isJsSpace).length :=
        List.length_reverse _
    _ ≤ (t.dropWhile isJsSpace).reverse.length := length_dropWhile_le _ _
    _ = (t.dropWhile isJsSpace).length := List.length_reverse _
    _ ≤ t.length := length_dropWhile_le _ _

theorem sanitizeDoc_mem_str (d : Doc) (iso : String)
    (h : ("date", MetaVal.date iso) ∈ d.metadata) :
    ("date", MetaVal.str iso) ∈ (sanitizeDoc d).metadata := by
  unfold sanitizeDoc
  refine List.mem_map.mpr ⟨("date", MetaVal.date iso), h, ?_⟩
  simp

theorem sanitizeDoc_not_mem_date (d : Doc) (iso : String) :
    ("date", MetaVal.date iso) ∉ (sanitizeDoc d).metadata := by
  unfold sanitizeDoc
  intro hmem
  obtain ⟨⟨k, v⟩, _, heq⟩ := List.mem_map.mp hmem
  match v with
  | MetaVal.str s => exact absurd heq (by simp)
  | MetaVal.num n => exact absurd heq (by simp)
  | MetaVal.date iso2 =>
    by_cases hk : k = "date"
    · subst hk; simp at heq
    · simp only [hk, if_false] at heq
      exact hk (Prod.ext_iff.mp heq).1

theorem length_insertDesc (p : Passage) : ∀ l, (insertDesc p l).length = l.length + 1
  | [] => rfl
  | q :: rest => by
    unfold insertDesc
    split
    · rfl
    · simp [length_insertDesc p rest]

theorem mem_of_mem_insertDesc (p x : Passage) :
    ∀ l, x ∈ insertDesc p l → x = p ∨ x ∈ l
  | [], h => by
    simp only [insertDesc, List.mem_singleton] at h
    exact Or.inl h
  | q :: rest, h => by
    unfold insertDesc at h
    split at h
    · rcases List.mem_cons.mp h with h1 | h1
      · exact Or.inl h1
      · exact Or.inr h1
    · rcases List.mem_cons.mp h with h1 | h1
      · exact Or.inr (List.mem_cons.mpr (Or.inl h1))
      · rcases mem_of_mem_insertDesc p x rest h1 with h2 | h2
        · exact Or.inl h2
        · exact Or.inr (List.mem_cons.mpr (Or.inr h2))

theorem pairwise_insertDesc (p : Passage) :
    ∀ l, l.Pairwise (fun a b => b.score ≤ a.score) →
      (insertDesc p l).Pairwise (fun a b => b.score ≤ a.score)
  | [], _ => List.pairwise_singleton _ _
  | q :: rest, hl => by
    have hq := (List.pairwise_cons.mp hl).1
    have hrest := (List.pairwise_cons.mp hl).2
    unfold insertDesc
    split
    · rename_i hle
      refine List.pairwise_cons.mpr ⟨?_, hl⟩
      intro x hx
      rcases List.mem_cons.mp hx with rfl | hx2
      · exact hle
      · exact le_trans (hq x hx2) hle
    · rename_i hgt
      refine List.pairwise_cons.mpr ⟨?_, pairwise_insertDesc p rest hrest⟩
      intro x hx
      rcases mem_of_mem_insertDesc p x rest hx with rfl | hx2
      · exact le_of_lt (lt_of_not_le hgt)
      · exact hq x hx2

theorem length_sortByScoreDesc : ∀ l : List Passage, (sortByScoreDesc l).length = l.length
  | [] => rfl
  | p :: rest => by
    unfold sortByScoreDesc
    rw [length_insertDesc, length_sortByScoreDesc rest, List.length_cons]

theorem mem_of_mem_sortByScoreDesc (x : Passage) :
    ∀ l, x ∈ sortByScoreDesc l → x ∈ l
  | p :: rest, h => by
    unfold sortByScoreDesc at h
    rcases mem_of_mem_insertDesc p x _ h with rfl | h2
    · exact List.mem_cons_self _ _
    · exact List.mem_cons.mpr (Or.inr (mem_of_mem_sortByScoreDesc x rest h2))

theorem pairwise_sortByScoreDesc :
    ∀ l : List Passage, (sortByScoreDesc l).Pairwise (fun a b => b.score ≤ a.score)
  | [] => List.Pairwise.nil
  | p :: rest => pairwise_insertDesc p _ (pairwise_sortByScoreDesc rest)

theorem alternating_append_pair (q a : String) :
    ∀ l, alternating (l ++ [ChatMsg.human q, ChatMsg.ai a]) = alternating l
  | [] => rfl
  | [m] => by cases m <;> rfl
  | ChatMsg.human _ :: ChatMsg.ai _ :: rest => alternating_append_pair q a rest
  | ChatMsg.human _ :: ChatMsg.human _ :: _ => rfl
  | ChatMsg.ai _ :: _ :: _ => rfl

theorem chatWithHistory_ok (env : ChatEnv) (hist : List ChatMsg) (q a : String)
    (ha : env.genResult = Except.ok a) :
    (chatWithHistory env hist q).newHistory = hist ++ [ChatMsg.human q, ChatMsg.ai a] := by
  simp [chatWithHistory, ha]

theorem runSessionFrom_ok :
    ∀ (calls : List (String × ChatEnv)) (hist : List ChatMsg),
      (∀ c ∈ calls, ∃ a, c.2.genResult = Except.ok a) →
      (runSessionFrom calls hist).length = hist.length + 2 * calls.length ∧
      (alternating hist = true → alternating (runSessionFrom calls hist) = true)
  | [], hist, _ => by simp [runSessionFrom]
  | (q, env) :: rest, hist, hok => by
    obtain ⟨a, ha⟩ := hok (q, env) (List.mem_cons_self _ _)
    have hstep := chatWithHistory_ok env hist q a ha
    have hrec := runSessionFrom_ok rest ((chatWithHistory env hist q).newHistory)
      (fun c hc => hok c (List.mem_cons.mpr (Or.inr hc)))
    rw [hstep] at hrec
    constructor
    · show (runSessionFrom rest (chatWithHistory env hist q).newHistory).length = _
      rw [hstep, hrec.1]
      simp only [List.length_append, List.length_cons, List.length_nil]
      ring
    · intro halt
      show alternating (runSessionFrom rest (chatWithHistory env hist q).newHistory) = true
      rw [hstep]
      exact hrec.2 (by rw [alternating_append_pair]; exact halt)

/-! Splitter lemmas: symbolic evaluation and window structure. -/

theorem sumLen_nil : sumLen [] = 0 := rfl

theorem sumLen_cons (x : Text) (l : List Text) : sumLen (x :: l) = x.length + sumLen l := by
  simp [sumLen]

theorem sumLen_append (a b : List Text) : sumLen (a ++ b) = sumLen a + sumLen b := by
  simp [sumLen]

theorem sumLen_map_singleton (t : Text) : sumLen (t.map fun c => [c]) = t.length := by
  induction t with
  | nil => rfl
  | cons c t ih =>
    simp [sumLen_cons, ih]
    omega

theorem flatten_map_singleton : ∀ t : Text, (t.map fun c => [c]).flatten = t
  | [] => rfl
  | c :: t => by simp [flatten_map_singleton t]

theorem intercalate_nil_sep : ∀ l : List Text, List.intercalate [] l = l.flatten
  | [] => rfl
  | [x] => by simp [List.intercalate]
  | x :: y :: rest => by
    have ih := intercalate_nil_sep (y :: rest)
    simp only [List.intercalate] at ih ⊢
    rw [List.intersperse_cons_cons]
    simp only [List.flatten_cons] at ih ⊢
    rw [ih]
    simp

theorem joinDocs_nil_sep (l : List Text) : joinDocs [] l = jsTrim l.flatten := by
  rw [joinDocs, intercalate_nil_sep]

theorem dropWhile_eq_self_of_head (p : Char → Bool) :
    ∀ l : Text, (∀ c, l.head? = some c → p c = false) → l.dropWhile p = l
  | [], _ => rfl
  | c :: l, h => by
    rw [List.dropWhile_cons, h c rfl]
    simp

theorem jsTrim_eq_self (t : Text) (h1 : ∀ c, t.head? = some c → isJsSpace c = false)
    (h2 : ∀ c, t.getLast? = some c → isJsSpace c = false) : jsTrim t = t := by
  unfold jsTrim
  rw [dropWhile_eq_self_of_head _ t h1]
  rw [dropWhile_eq_self_of_head _ t.reverse (by
    intro c hc
    rw [List.head?_reverse] at hc
    exact h2 c hc)]
  exact List.reverse_reverse t

theorem head?_replicate_succ (n : Nat) (c : Char) :
    (List.replicate (n + 1) c).head? = some c := by
  rw [List.replicate_succ]
  rfl

theorem getLast?_replicate_succ (n : Nat) (c : Char) :
    (List.replicate (n + 1) c).getLast? = some c := by
  rw [← List.head?_reverse, List.reverse_replicate]
  exact head?_replicate_succ n c

theorem leads_cons_false (h c : Char) (s t : Text) (hc : h ≠ c) :
    leads (h :: s) (c :: t) = false := by
  simp [leads, hc]

theorem occurs_cons_false (h : Char) (s : Text) :
    ∀ t : Text, h ∉ t → occurs (h :: s) t = false
  | [], _ => rfl
  | c :: t, hmem => by
    have hc : h ≠ c := fun he => hmem (he ▸ List.mem_cons_self c t)
    have ht : h ∉ t := fun he => hmem (List.mem_cons.mpr (Or.inr he))
    rw [occurs, leads_cons_false h c s t hc, occurs_cons_false h s t ht]
    rfl

theorem occurs_false_of_head (s t : Text) (hne : s ≠ [])
    (h : ∀ c, s.head? = some c → c ∉ t) : occurs s t = false := by
  match s with
  | c :: s2 => exact occurs_cons_false c s2 t (h c rfl)

theorem occurs_append_right (sep B : Text) (hB : occurs sep B = true) :
    ∀ A : Text, occurs sep (A ++ B) = true
  | [] => hB
  | c :: A => by
    rw [List.cons_append, occurs, occurs_append_right sep B hB A, Bool.or_true]

theorem chooseSepAux_all_fail (t dflt : Text) :
    ∀ seps : List Text, (∀ s ∈ seps, s ≠ [] → occurs s t = false) → [] ∈ seps →
      chooseSepAux t dflt seps = ([], none)
  | [], _, hmem => absurd hmem (List.not_mem_nil _)
  | s :: rest, hall, hmem => by
    rw [chooseSepAux]
    by_cases hs : s.isEmpty
    · rw [if_pos hs]
    · rw [if_neg hs]
      have hsne : s ≠ [] := by simpa [List.isEmpty_iff] using hs
      rw [hall s (List.mem_cons_self _ _) hsne]
      simp only [Bool.false_eq_true, if_false]
      exact chooseSepAux_all_fail t dflt rest
        (fun x hx => hall x (List.mem_cons.mpr (Or.inr hx)))
        (by rcases List.mem_cons.mp hmem with h | h
            · exact absurd h.symm hsne
            · exact h)

theorem chooseSepAux_first_hit (t dflt s : Text) (rest : List Text)
    (hne : s.isEmpty = false) (hocc : occurs s t = true) :
    chooseSepAux t dflt (s :: rest) = (s, some rest) := by
  rw [chooseSepAux, if_neg (by simp [hne]), hocc]
  rfl

theorem groupSplits_all_good (cs : Nat) :
    ∀ l : List Text, l ≠ [] → (∀ s ∈ l, s.length < cs) →
      groupSplits cs l = [Sum.inl l]
  | [s], _, hgood => by
    rw [groupSplits, if_pos (hgood s (List.mem_cons_self _ _))]
    rfl
  | s :: s2 :: rest, _, hgood => by
    rw [groupSplits, if_pos (hgood s (List.mem_cons_self _ _))]
    rw [groupSplits_all_good cs (s2 :: rest) (by simp)
      (fun x hx => hgood x (List.mem_cons.mpr (Or.inr hx)))]

theorem filter_nonempty_of_all (l : List Text) (h : ∀ s ∈ l, s ≠ []) :
    l.filter (fun s => !s.isEmpty) = l :=
  List.filter_eq_self.mpr (fun s hs => by simpa [List.isEmpty_iff] using h s hs)

theorem splitBeforeAux_walk (h : Char) (s : Text) :
    ∀ (A rest acc : Text), acc ≠ [] → (∀ x ∈ A, x ≠ h) →
      splitBeforeAux (h :: s) (A ++ rest) acc =
        splitBeforeAux (h :: s) rest (A.reverse ++ acc)
  | [], rest, acc, _, _ => by simp
  | c :: A, rest, acc, hacc, hA => by
    rw [List.cons_append, splitBeforeAux,
      if_neg (by simpa [List.isEmpty_iff] using hacc)]
    have hc : h ≠ c := fun he => hA c (List.mem_cons_self _ _) he.symm
    rw [if_neg (by simp [leads_cons_false h c s _ hc])]
    rw [splitBeforeAux_walk h s A rest (c :: acc) (by simp)
      (fun x hx => hA x (List.mem_cons.mpr (Or.inr hx)))]
    simp

theorem splitBeforeAux_hit (h : Char) (s : Text) (b : Char) (B acc : Text)
    (hacc : acc ≠ []) (hlead : leads (h :: s) (b :: B) = true) :
    splitBeforeAux (h :: s) (b :: B) acc =
      acc.reverse :: splitBeforeAux (h :: s) B [b] := by
  rw [splitBeforeAux, if_neg (by simpa [List.isEmpty_iff] using hacc), if_pos hlead]

theorem mergeFlush_no (cs co : Nat) (sep : Text) (st : MergeSt) (len : Nat)
    (hle : st.total + len + st.cd.length * sep.length ≤ cs) :
    mergeFlush cs co sep st len = st := by
  rw [mergeFlush, if_neg (by omega)]

theorem mergeGo_no_flush (cs co : Nat) :
    ∀ (l : List Text) (st : MergeSt), st.total + sumLen l ≤ cs →
      mergeGo cs co [] l st = ⟨st.docs, st.cd ++ l, st.total + sumLen l⟩
  | [], st, _ => by cases st; simp [mergeGo, sumLen_nil]
  | d :: rest, st, hle => by
    rw [mergeGo]
    have hsum := sumLen_cons d rest
    have hnof : st.total + d.length + st.cd.length * ([] : Text).length ≤ cs := by
      simp only [List.length_nil, Nat.mul_zero, Nat.add_zero]
      omega
    rw [mergeFlush_no cs co [] st d.length hnof]
    rw [mergeGo_no_flush cs co rest ⟨st.docs, st.cd ++ [d], st.total + d.length⟩
      (by simp only []; omega)]
    simp only [MergeSt.mk.injEq, List.append_assoc, List.singleton_append]
    exact ⟨trivial, trivial, by omega⟩

theorem mergeGo_cons (cs co : Nat) (sep d : Text) (rest : List Text) (st : MergeSt) :
    mergeGo cs co sep (d :: rest) st =
      mergeGo cs co sep rest
        ⟨(mergeFlush cs co sep st d.length).docs,
         (mergeFlush cs co sep st d.length).cd ++ [d],
         (mergeFlush cs co sep st d.length).total + d.length⟩ := rfl

theorem splitBeforeAux_walk_end (h : Char) (s : Text) (A acc : Text) (hacc : acc ≠ [])
    (hA : ∀ x ∈ A, x ≠ h) :
    splitBeforeAux (h :: s) A acc = [acc.reverse ++ A] := by
  have hw := splitBeforeAux_walk h s A [] acc hacc hA
  rw [List.append_nil] at hw
  rw [hw, splitBeforeAux, List.reverse_append, List.reverse_reverse]

theorem mergeGo_append (cs co : Nat) (sep : Text) :
    ∀ (l1 l2 : List Text) (st : MergeSt),
      mergeGo cs co sep (l1 ++ l2) st = mergeGo cs co sep l2 (mergeGo cs co sep l1 st)
  | [], _, _ => rfl
  | d :: l1, l2, st => by
    rw [List.cons_append, mergeGo, mergeGo, mergeGo_append cs co sep l1 l2]

theorem shiftLoop_singles (cs co len : Nat) (hcfg : co + len ≤ cs) :
    ∀ l : List Text, (∀ x ∈ l, x.length = 1) →
      shiftLoop cs co 0 len l l.length = (l.drop (l.length - co), min l.length co)
  | [], _ => by simp [shiftLoop]
  | c :: l, hsing => by
    rw [shiftLoop]
    by_cases hgt : (c :: l).length > co
    · rw [if_pos (Or.inl hgt)]
      have hc1 : c.length = 1 := hsing c (List.mem_cons_self _ _)
      have hrw : (c :: l).length - c.length = l.length := by
        simp [List.length_cons, hc1]
      rw [hrw, shiftLoop_singles cs co len hcfg l
        (fun x hx => hsing x (List.mem_cons.mpr (Or.inr hx)))]
      have hlen : l.length ≥ co := by simp only [List.length_cons] at hgt; omega
      have h1 : (c :: l).length - co = (l.length - co) + 1 := by
        simp only [List.length_cons]; omega
      rw [h1, List.drop_succ_cons]
      have h2 : min l.length co = co := Nat.min_eq_right hlen
      have h3 : min (c :: l).length co = co := by
        simp only [List.length_cons]; exact Nat.min_eq_right (by omega)
      rw [h2, h3]
    · have hle2 : (c :: l).length ≤ co := by omega
      rw [if_neg (by
        push_neg
        constructor
        · omega
        · intro hX
          simp only [Nat.mul_zero] at hX
          omega)]
      have h0 : (c :: l).length - co = 0 := by omega
      rw [h0, List.drop_zero, Nat.min_eq_left hle2]

theorem shiftLoop_singles_total (cs co len : Nat) (hcfg : co + len ≤ cs)
    (l : List Text) (hsing : ∀ x ∈ l, x.length = 1) (total : Nat)
    (ht : total = l.length) :
    shiftLoop cs co 0 len l total = (l.drop (total - co), min total co) := by
  subst ht
  exact shiftLoop_singles cs co len hcfg l hsing

theorem mergeFlush_flush (cs co : Nat) (st : MergeSt) (len : Nat)
    (hcond : cs < st.total + len) (hcd : st.cd.isEmpty = false)
    (hdoc : (jsTrim st.cd.flatten).isEmpty = false) :
    mergeFlush cs co [] st len =
      ⟨st.docs ++ [jsTrim st.cd.flatten],
       (shiftLoop cs co 0 len st.cd st.total).1,
       (shiftLoop cs co 0 len st.cd st.total).2⟩ := by
  rw [mergeFlush]
  rw [if_pos (show st.total + len + st.cd.length * ([] : Text).length > cs by
    simp only [List.length_nil, Nat.mul_zero, Nat.add_zero]
    exact hcond)]
  rw [hcd, if_neg (by simp)]
  simp only [joinDocs_nil_sep, intercalate_nil_sep, hdoc, Bool.false_eq_true, if_false,
    List.length_nil]

theorem head?_replicate_pos (n : Nat) (c : Char) (h : 0 < n) :
    (List.replicate n c).head? = some c := by
  match n, h with
  | m + 1, _ => rw [List.replicate_succ]; rfl

theorem getLast?_replicate_pos (n : Nat) (c : Char) (h : 0 < n) :
    (List.replicate n c).getLast? = some c := by
  rw [← List.head?_reverse, List.reverse_replicate]
  exact head?_replicate_pos n c h

theorem isEmpty_replicate_pos {α : Type} (n : Nat) (c : α) (h : 0 < n) :
    (List.replicate n c).isEmpty = false := by
  match n, h with
  | m + 1, _ => rw [List.replicate_succ]; rfl

theorem jsTrim_cons_of_space (c : Char) (t : Text) (h : isJsSpace c = true) :
    jsTrim (c :: t) = jsTrim t := by
  unfold jsTrim
  rw [List.dropWhile_cons_of_pos (by simpa using h)]

theorem jsTrim_replicate_nonspace (n : Nat) (c : Char) (h : isJsSpace c = false) :
    jsTrim (List.replicate n c) = List.replicate n c := by
  match n with
  | 0 => rfl
  | m + 1 =>
    apply jsTrim_eq_self
    · intro d hd
      rw [head?_replicate_pos _ _ (Nat.succ_pos m)] at hd
      cases hd; exact h
    · intro d hd
      rw [getLast?_replicate_pos _ _ (Nat.succ_pos m)] at hd
      cases hd; exact h

theorem splitOnSeparator_nil (t : Text) :
    splitOnSeparator [] t = t.map (fun c => [c]) := by
  rw [splitOnSeparator]
  simp only [List.isEmpty_nil, if_true]
  apply filter_nonempty_of_all
  intro s hs
  obtain ⟨c, _, rfl⟩ := List.mem_map.mp hs
  simp

theorem htmlSeparators_heads : ∀ s ∈ htmlSeparators, s ≠ [] → s.head? = some '<' := by
  decide

/-- The text of the C2 counterexample: two 300-character paragraphs separated by a blank
line, with no HTML tag anywhere. -/
def c2Text : Text := List.replicate 300 'a' ++ '\n' :: '\n' :: List.replicate 300 'b'

theorem not_lt_mem_c2Text : '<' ∉ c2Text := by
  intro h
  rw [c2Text] at h
  rcases List.mem_append.mp h with h1 | h1
  · rcases List.mem_replicate.mp h1 with ⟨-, h2⟩
    exact absurd h2 (by decide)
  · rcases List.mem_cons.mp h1 with h2 | h2
    · exact absurd h2 (by decide)
    · rcases List.mem_cons.mp h2 with h3 | h3
      · exact absurd h3 (by decide)
      · rcases List.mem_replicate.mp h3 with ⟨-, h4⟩
        exact absurd h4 (by decide)

theorem chooseSep_html_c2Text : chooseSep htmlSeparators c2Text = ([], none) := by
  rw [chooseSep]
  apply chooseSepAux_all_fail
  · intro s hs hne
    apply occurs_false_of_head s _ hne
    intro c hc
    rw [htmlSeparators_heads s hs hne] at hc
    cases hc
    exact not_lt_mem_c2Text
  · decide

/-! Symbolic evaluation of the html splitter on the counterexample text. -/

theorem htmlSplitText_c2Text :
    htmlSplitText c2Text =
      [List.replicate 300 'a' ++ '\n' :: '\n' :: List.replicate 198 'b',
       List.replicate 202 'b'] := by
  have hsplits : splitOnSeparator (chooseSep htmlSeparators c2Text).1 c2Text =
      c2Text.map (fun c => [c]) := by
    rw [chooseSep_html_c2Text]
    exact splitOnSeparator_nil c2Text
  have hc2len : c2Text.length = 602 := by
    rw [c2Text, List.length_append, List.length_cons, List.length_cons,
      List.length_replicate, List.length_replicate]
  have hne : c2Text.map (fun c => [c]) ≠ [] := by
    rw [Ne, List.map_eq_nil_iff]
    intro h
    rw [h] at hc2len
    exact absurd hc2len (by decide)
  have hgood : ∀ s ∈ c2Text.map (fun c => [c]), s.length < chunkSize := by
    intro s hs
    obtain ⟨c, _, rfl⟩ := List.mem_map.mp hs
    rw [chunkSize]
    norm_num
  have hsing : ∀ s ∈ c2Text.map (fun c => [c]), s.length = 1 := by
    intro s hs
    obtain ⟨c, _, rfl⟩ := List.mem_map.mp hs
    rfl
  rw [htmlSplitText, splitTextRec.eq_def, hsplits,
    groupSplits_all_good chunkSize _ hne hgood]
  rw [chooseSep_html_c2Text]
  simp only [List.flatMap_cons, List.flatMap_nil, List.append_nil]
  -- the one run of good splits is merged; evaluate the merge in three phases
  have hA1 : c2Text = (List.replicate 300 'a' ++ '\n' :: '\n' :: List.replicate 198 'b')
      ++ List.replicate 102 'b' := by
    rw [c2Text]
    nth_rewrite 2 [show (300 : Nat) = 198 + 102 from by norm_num]
    rw [List.replicate_add, List.append_assoc, List.cons_append, List.cons_append]
  set A1 : Text := List.replicate 300 'a' ++ '\n' :: '\n' :: List.replicate 198 'b'
    with hA1def
  have hA1len : A1.length = 500 := by
    rw [hA1def, List.length_append, List.length_cons, List.length_cons,
      List.length_replicate, List.length_replicate]
  have hA1ne : A1 ≠ [] := by
    intro h
    rw [h, List.length_nil] at hA1len
    exact absurd hA1len (by decide)
  have hA1head : A1.head? = some 'a' := by
    rw [hA1def, List.head?_append, head?_replicate_pos 300 'a' (by norm_num)]
    rfl
  have hA1last : A1.getLast? = some 'b' := by
    rw [hA1def, List.getLast?_append]
    have h2 : ('\n' :: '\n' :: List.replicate 198 'b').getLast? = some 'b' := by
      rw [← List.head?_reverse, List.reverse_cons, List.reverse_cons,
        List.reverse_replicate, List.append_assoc, List.head?_append,
        head?_replicate_pos 198 'b' (by norm_num)]
      rfl
    rw [h2]
    rfl
  have hA1trim : jsTrim A1 = A1 := by
    apply jsTrim_eq_self
    · intro c hc
      rw [hA1head] at hc
      cases hc
      decide
    · intro c hc
      rw [hA1last] at hc
      cases hc
      decide
  have hA1mapne : (A1.map fun c => [c]) ≠ [] := by
    rw [Ne, List.map_eq_nil_iff]
    exact hA1ne
  have hA1mapEmpty : (A1.map fun c => [c]).isEmpty = false := by
    cases hh : (A1.map fun c => [c]).isEmpty
    · rfl
    · exact absurd (List.isEmpty_iff.mp hh) hA1mapne
  have hA1maplen : (A1.map fun c => [c]).length = 500 := by
    rw [List.length_map, hA1len]
  have hsingA1 : ∀ x ∈ A1.map (fun c => [c]), x.length = 1 := by
    intro x hx
    obtain ⟨c, _, rfl⟩ := List.mem_map.mp hx
    rfl
  have hA1drop : A1.drop 400 = List.replicate 100 'b' := by
    have hsplit2 : A1 = (List.replicate 300 'a' ++ '\n' :: '\n' :: List.replicate 98 'b')
        ++ List.replicate 100 'b' := by
      rw [hA1def, show (198 : Nat) = 98 + 100 from by norm_num, List.replicate_add,
        List.append_assoc, List.cons_append, List.cons_append]
    have hlen400 :
        (List.replicate 300 'a' ++ '\n' :: '\n' :: List.replicate 98 'b').length = 400 := by
      rw [List.length_append, List.length_cons, List.length_cons, List.length_replicate,
        List.length_replicate]
    rw [hsplit2, ← hlen400, List.drop_left]
  have hmap : c2Text.map (fun c => [c]) =
      A1.map (fun c => [c]) ++ (List.replicate 102 'b').map (fun c => [c]) := by
    rw [hA1, List.map_append]
  -- phase 1: the first 500 single-character splits fill the window without a flush
  have hsum1 : sumLen (A1.map fun c => [c]) = 500 := by
    rw [sumLen_map_singleton, hA1len]
  have hp1 : mergeGo 500 100 [] (A1.map fun c => [c]) ⟨[], [], 0⟩ =
      ⟨[], A1.map (fun c => [c]), 500⟩ := by
    rw [mergeGo_no_flush 500 100 _ _ (by simp only []; omega)]
    rw [hsum1, List.nil_append]
  -- phase 2: the 501st character flushes the first chunk and shifts to the overlap
  have h102 : (List.replicate 102 'b').map (fun c : Char => [c]) =
      ['b'] :: (List.replicate 101 'b').map (fun c => [c]) := by
    rw [show (102 : Nat) = 101 + 1 from by norm_num, List.replicate_succ]
    rfl
  have hdocne : (jsTrim (A1.map (fun c : Char => [c])).flatten).isEmpty = false := by
    rw [flatten_map_singleton, hA1trim]
    cases hh : A1.isEmpty
    · rfl
    · exact absurd (List.isEmpty_iff.mp hh) hA1ne
  have hflush : mergeFlush 500 100 [] ⟨[], A1.map (fun c => [c]), 500⟩ (['b'].length) =
      ⟨[A1], (List.replicate 100 'b').map (fun c => [c]), 100⟩ := by
    rw [mergeFlush_flush 500 100 ⟨[], A1.map (fun c => [c]), 500⟩ (['b'].length)
      (by decide) hA1mapEmpty hdocne]
    rw [shiftLoop_singles_total 500 100 (['b'].length) (by decide) _ hsingA1 500
      hA1maplen.symm]
    rw [flatten_map_singleton, hA1trim]
    rw [show (500 : Nat) - 100 = 400 from by norm_num, ← List.map_drop, hA1drop]
    rfl
  have hstep : (List.replicate 100 'b').map (fun c : Char => [c]) ++ [['b']] =
      (List.replicate 101 'b').map (fun c => [c]) := by
    rw [show (101 : Nat) = 100 + 1 from by norm_num, List.replicate_succ',
      List.map_append]
    rfl
  -- phase 3: the remaining 101 characters fit within the window
  have hp3 : mergeGo 500 100 [] ((List.replicate 101 'b').map fun c => [c])
      ⟨[A1], (List.replicate 101 'b').map (fun c => [c]), 101⟩ =
      ⟨[A1], (List.replicate 202 'b').map (fun c => [c]), 202⟩ := by
    have hs : sumLen ((List.replicate 101 'b').map fun c : Char => [c]) = 101 := by
      rw [sumLen_map_singleton, List.length_replicate]
    rw [mergeGo_no_flush 500 100 _ _ (by simp only []; omega)]
    rw [hs]
    have happ : (List.replicate 101 'b').map (fun c : Char => [c]) ++
        (List.replicate 101 'b').map (fun c => [c]) =
        (List.replicate 202 'b').map (fun c => [c]) := by
      rw [← List.map_append, show (202 : Nat) = 101 + 101 from by norm_num,
        List.replicate_add]
    rw [happ]
  have hgo : mergeGo 500 100 [] (c2Text.map fun c => [c]) ⟨[], [], 0⟩ =
      ⟨[A1], (List.replicate 202 'b').map (fun c => [c]), 202⟩ := by
    have hcons : ∀ (d : Text) (rest : List Text) (st : MergeSt),
        mergeGo 500 100 [] (d :: rest) st =
          mergeGo 500 100 [] rest
            ⟨(mergeFlush 500 100 [] st d.length).docs,
             (mergeFlush 500 100 [] st d.length).cd ++ [d],
             (mergeFlush 500 100 [] st d.length).total + d.length⟩ :=
      fun d rest st => rfl
    rw [hmap, mergeGo_append, hp1, h102, hcons, hflush]
    have h101 : (100 : Nat) + ['b'].length = 101 := rfl
    rw [h101, hstep, hp3]
  -- assemble
  show mergeSplits chunkSize chunkOverlap [] (c2Text.map fun c => [c]) = _
  rw [chunkSize, chunkOverlap, mergeSplits, hgo]
  simp only [joinDocs_nil_sep, flatten_map_singleton,
    jsTrim_replicate_nonspace 202 'b' (by decide),
    isEmpty_replicate_pos 202 'b' (by norm_num), Bool.false_eq_true, if_false]
  rfl

/-! Symbolic evaluation of the spec-described splitter on the counterexample text. -/

theorem specSplitText_c2Text :
    specSplitText c2Text = [List.replicate 300 'a', List.replicate 300 'b'] := by
  have hsep : "\n\n".toList = ['\n', '\n'] := rfl
  have h300a : List.replicate 300 'a' = 'a' :: List.replicate 299 'a' := by
    rw [show (300 : Nat) = 299 + 1 from by norm_num, List.replicate_succ]
  have h300b : List.replicate 300 'b' = 'b' :: List.replicate 299 'b' := by
    rw [show (300 : Nat) = 299 + 1 from by norm_num, List.replicate_succ]
  have hocc : occurs ['\n', '\n'] c2Text = true := by
    rw [c2Text]
    apply occurs_append_right
    rw [occurs]
    have hlead : leads ['\n', '\n'] ('\n' :: '\n' :: List.replicate 300 'b') = true := by
      rw [leads, leads]
      rfl
    rw [hlead, Bool.true_or]
  have hchoose : chooseSep specBoundarySeparators c2Text =
      (['\n', '\n'], some [". ".toList, " ".toList, []]) := by
    rw [chooseSep, specBoundarySeparators, hsep]
    exact chooseSepAux_first_hit _ _ _ _ (by decide) hocc
  have hsb : splitBefore ['\n', '\n'] c2Text =
      [List.replicate 300 'a', '\n' :: '\n' :: List.replicate 300 'b'] := by
    rw [splitBefore, c2Text]
    nth_rewrite 1 [h300a]
    rw [List.cons_append, splitBeforeAux]
    rw [if_pos List.isEmpty_nil]
    rw [splitBeforeAux_walk '\n' ['\n'] (List.replicate 299 'a') _ ['a'] (by decide)
      (fun x hx => by
        rcases List.mem_replicate.mp hx with ⟨-, rfl⟩
        decide)]
    rw [List.reverse_replicate]
    have hacc300 : List.replicate 299 'a' ++ ['a'] = List.replicate 300 'a' := by
      rw [← List.replicate_succ']
    rw [hacc300]
    rw [splitBeforeAux_hit '\n' ['\n'] '\n' ('\n' :: List.replicate 300 'b')
      (List.replicate 300 'a') (by
        intro hcon
        have := congrArg List.length hcon
        rw [List.length_replicate, List.length_nil] at this
        exact absurd this (by decide))
      (by rw [leads, leads]; rfl)]
    rw [List.reverse_replicate]
    nth_rewrite 1 [h300b]
    rw [splitBeforeAux]
    rw [if_neg (by decide)]
    rw [if_neg (by decide)]
    rw [splitBeforeAux_walk_end '\n' ['\n'] ('b' :: List.replicate 299 'b') ['\n', '\n']
      (by decide) (fun x hx => by
        rcases List.mem_cons.mp hx with rfl | hx2
        · decide
        · rcases List.mem_replicate.mp hx2 with ⟨-, rfl⟩
          decide)]
    rw [← h300b]
    rfl
  have hp1len : (List.replicate 300 'a' : Text).length = 300 := List.length_replicate _ _
  have hp2len : ('\n' :: '\n' :: List.replicate 300 'b' : Text).length = 302 := by
    rw [List.length_cons, List.length_cons, List.length_replicate]
  have hsplits : splitOnSeparator ['\n', '\n'] c2Text =
      [List.replicate 300 'a', '\n' :: '\n' :: List.replicate 300 'b'] := by
    rw [splitOnSeparator]
    rw [if_neg (by decide)]
    rw [hsb]
    apply filter_nonempty_of_all
    intro s hs
    rcases List.mem_cons.mp hs with rfl | hs2
    · intro hcon
      rw [hcon] at hp1len
      exact absurd hp1len (by decide)
    · rcases List.mem_cons.mp hs2 with rfl | hs3
      · exact List.cons_ne_nil _ _
      · exact absurd hs3 (List.not_mem_nil _)
  have hgroup : groupSplits chunkSize
      [List.replicate 300 'a', '\n' :: '\n' :: List.replicate 300 'b'] =
      [Sum.inl [List.replicate 300 'a', '\n' :: '\n' :: List.replicate 300 'b']] := by
    apply groupSplits_all_good
    · exact List.cons_ne_nil _ _
    · intro s hs
      rcases List.mem_cons.mp hs with rfl | hs2
      · rw [hp1len, chunkSize]; norm_num
      · rcases List.mem_cons.mp hs2 with rfl | hs3
        · rw [hp2len, chunkSize]; norm_num
        · exact absurd hs3 (List.not_mem_nil _)
  -- the merge over the two paragraph pieces
  have hflush1 : mergeFlush 500 100 [] ⟨[], [], 0⟩
      (List.replicate 300 'a' : Text).length = ⟨[], [], 0⟩ := by
    apply mergeFlush_no
    show (0 : Nat) + (List.replicate 300 'a' : Text).length +
      ([] : List Text).length * ([] : Text).length ≤ 500
    rw [hp1len]
    norm_num
  have hflush2 : mergeFlush 500 100 [] ⟨[], [List.replicate 300 'a'], 300⟩
      ('\n' :: '\n' :: List.replicate 300 'b' : Text).length =
      ⟨[List.replicate 300 'a'], [], 0⟩ := by
    rw [mergeFlush_flush 500 100 ⟨[], [List.replicate 300 'a'], 300⟩ _
      (by
        show (500 : Nat) < 300 + ('\n' :: '\n' :: List.replicate 300 'b' : Text).length
        rw [hp2len]
        norm_num)
      rfl
      (by
        show (jsTrim ([List.replicate 300 'a'] : List Text).flatten).isEmpty = false
        rw [List.flatten_cons, List.flatten_nil, List.append_nil,
          jsTrim_replicate_nonspace 300 'a' (by decide)]
        exact isEmpty_replicate_pos 300 'a' (by norm_num))]
    dsimp only
    rw [List.flatten_cons, List.flatten_nil, List.append_nil,
      jsTrim_replicate_nonspace 300 'a' (by decide)]
    rw [shiftLoop]
    rw [if_pos (Or.inl (by norm_num : (300 : Nat) > 100))]
    rw [hp1len]
    rw [shiftLoop]
    rfl
  have hgo2 : mergeGo 500 100 []
      [List.replicate 300 'a', '\n' :: '\n' :: List.replicate 300 'b'] ⟨[], [], 0⟩ =
      ⟨[List.replicate 300 'a'], ['\n' :: '\n' :: List.replicate 300 'b'], 302⟩ := by
    rw [mergeGo_cons, hflush1]
    dsimp only
    rw [List.nil_append, hp1len, Nat.zero_add]
    rw [mergeGo_cons, hflush2]
    dsimp only
    rw [List.nil_append, Nat.zero_add, hp2len]
    rw [mergeGo]
  have hmerge : mergeSplits 500 100 []
      [List.replicate 300 'a', '\n' :: '\n' :: List.replicate 300 'b'] =
      [List.replicate 300 'a', List.replicate 300 'b'] := by
    rw [mergeSplits, hgo2]
    simp only [joinDocs_nil_sep, List.flatten_cons, List.flatten_nil, List.append_nil]
    rw [jsTrim_cons_of_space '\n' _ (by decide), jsTrim_cons_of_space '\n' _ (by decide),
      jsTrim_replicate_nonspace 300 'b' (by decide)]
    simp only [isEmpty_replicate_pos 300 'b' (by norm_num : (0:Nat) < 300),
      Bool.false_eq_true, if_false]
    rfl
  rw [specSplitText, splitTextRec.eq_def, hchoose]
  dsimp only
  rw [hsplits, hgroup]
  simp only [List.flatMap_cons, List.flatMap_nil, List.append_nil]
  rw [chunkSize, chunkOverlap, hmerge]

/-! Window structure of the splitter output: every chunk is the trim of a contiguous
window of the source text, consecutive windows overlap by at most chunkOverlap
characters, and no window is wider than chunkSize. -/

/-- Relation between the source windows of consecutive chunks: starts are ordered and the
earlier window ends at most co characters into the later one. -/
def WinRel (co : Nat) (w1 w2 : Nat × Nat) : Prop :=
  w1.1 ≤ w2.1 ∧ w1.2 ≤ w2.1 + co

theorem length_flatten_sumLen (l : List Text) : l.flatten.length = sumLen l := by
  rw [List.length_flatten, sumLen]

theorem flatten_singleton (t : Text) : ([t] : List Text).flatten = t := by
  rw [List.flatten_cons, List.flatten_nil, List.append_nil]

theorem flatten_filter_nonempty : ∀ l : List Text,
    (l.filter (fun s => !s.isEmpty)).flatten = l.flatten
  | [] => rfl
  | s :: l => by
    rw [List.filter_cons]
    by_cases hs : s.isEmpty
    · have hnil : s = [] := List.isEmpty_iff.mp hs
      rw [if_neg (by simp [hs]), List.flatten_cons, hnil, List.nil_append,
        flatten_filter_nonempty l]
    · rw [if_pos (by simp [hs]), List.flatten_cons, List.flatten_cons,
        flatten_filter_nonempty l]

theorem splitBeforeAux_flatten (sep : Text) :
    ∀ (t acc : Text), (splitBeforeAux sep t acc).flatten = acc.reverse ++ t
  | [], acc => by
    rw [splitBeforeAux, flatten_singleton, List.append_nil]
  | c :: t, acc => by
    rw [splitBeforeAux]
    by_cases hacc : acc.isEmpty
    · rw [if_pos hacc, splitBeforeAux_flatten sep t [c]]
      have : acc = [] := List.isEmpty_iff.mp hacc
      rw [this]
      rfl
    · rw [if_neg hacc]
      by_cases hlead : leads sep (c :: t) = true
      · rw [if_pos hlead, List.flatten_cons, splitBeforeAux_flatten sep t [c]]
        rfl
      · rw [if_neg hlead, splitBeforeAux_flatten sep t (c :: acc),
          List.reverse_cons, List.append_assoc]
        rfl

theorem splitOnSeparator_flatten (sep t : Text) :
    (splitOnSeparator sep t).flatten = t := by
  rw [splitOnSeparator, flatten_filter_nonempty]
  by_cases hsep : sep.isEmpty
  · rw [if_pos hsep, flatten_map_singleton]
  · rw [if_neg hsep, splitBefore, splitBeforeAux_flatten]
    rfl

theorem splitOnSeparator_ne_nil (sep t : Text) :
    ∀ s ∈ splitOnSeparator sep t, s ≠ [] := by
  intro s hs
  have := (List.mem_filter.mp hs).2
  simpa [List.isEmpty_iff] using this

theorem seg_middle (A B C : Text) :
    seg (A ++ (B ++ C)) A.length (A.length + B.length) = B := by
  rw [seg, List.drop_left, Nat.add_sub_cancel_left, List.take_left]

theorem seg_append_left (B C : Text) (a b : Nat) (hb : b ≤ B.length) :
    seg (B ++ C) a b = seg B a b := by
  by_cases ha : a ≤ B.length
  · rw [seg, seg, List.drop_append_of_le_length ha,
      List.take_append_of_le_length (by rw [List.length_drop]; omega)]
  · have hba : b - a = 0 := by omega
    rw [seg, seg, hba, List.take_zero, List.take_zero]

theorem seg_shift (B C : Text) (a b : Nat) :
    seg (B ++ C) (B.length + a) (B.length + b) = seg C a b := by
  rw [seg, seg, List.drop_append]
  congr 1
  omega

theorem shiftLoop_spec (cs co len : Nat) :
    ∀ (cd : List Text) (total : Nat), total = sumLen cd →
      ∃ shed : List Text,
        cd = shed ++ (shiftLoop cs co 0 len cd total).1 ∧
        (shiftLoop cs co 0 len cd total).2 = sumLen (shiftLoop cs co 0 len cd total).1 ∧
        (shiftLoop cs co 0 len cd total).2 ≤ co ∧
        ((shiftLoop cs co 0 len cd total).2 + len ≤ cs ∨
          (shiftLoop cs co 0 len cd total).2 = 0)
  | [], total, ht => by
    rw [shiftLoop]
    have h0 : total = 0 := by rw [ht, sumLen_nil]
    exact ⟨[], rfl, by rw [h0, sumLen_nil], by omega, Or.inr h0⟩
  | c :: cd, total, ht => by
    rw [shiftLoop]
    by_cases hguard : total > co ∨ (total + len + (cd.length + 1) * 0 > cs ∧ total > 0)
    · rw [if_pos hguard]
      have ht2 : total - c.length = sumLen cd := by
        rw [ht, sumLen_cons]; omega
      obtain ⟨shed, h1, h2, h3, h4⟩ := shiftLoop_spec cs co len cd (total - c.length) ht2
      exact ⟨c :: shed, by rw [List.cons_append, ← h1], h2, h3, h4⟩
    · rw [if_neg hguard]
      push_neg at hguard
      refine ⟨[], rfl, ht, hguard.1, ?_⟩
      by_cases hB : total + len + (cd.length + 1) * 0 > cs
      · exact Or.inr (by omega)
      · exact Or.inl (by omega)

theorem mergeFlush_flush_general (cs co : Nat) (st : MergeSt) (len : Nat)
    (hcond : cs < st.total + len) (hcd : st.cd.isEmpty = false) :
    mergeFlush cs co [] st len =
      ⟨(if (jsTrim st.cd.flatten).isEmpty then st.docs
        else st.docs ++ [jsTrim st.cd.flatten]),
       (shiftLoop cs co 0 len st.cd st.total).1,
       (shiftLoop cs co 0 len st.cd st.total).2⟩ := by
  rw [mergeFlush]
  rw [if_pos (show st.total + len + st.cd.length * ([] : Text).length > cs by
    simp only [List.length_nil, Nat.mul_zero, Nat.add_zero]
    exact hcond)]
  rw [hcd, if_neg (by simp)]
  simp only [joinDocs_nil_sep, intercalate_nil_sep, List.length_nil]

theorem MergeSt_docs (a : List Text) (b : List Text) (c : Nat) :
    (MergeSt.mk a b c).docs = a := rfl

theorem MergeSt_cd (a : List Text) (b : List Text) (c : Nat) :
    (MergeSt.mk a b c).cd = b := rfl

theorem MergeSt_total (a : List Text) (b : List Text) (c : Nat) :
    (MergeSt.mk a b c).total = c := rfl

theorem mergeGo_windows (cs co : Nat) (L : List Text) :
    ∀ (rest dropped cd docs : List Text) (ws : List (Nat × Nat)) (total : Nat),
      L = dropped ++ cd ++ rest →
      (∀ s ∈ cd, s.length < cs) →
      (∀ s ∈ rest, s.length < cs) →
      total = sumLen cd →
      total ≤ cs →
      docs = ws.map (fun w => jsTrim (seg L.flatten w.1 w.2)) →
      List.Chain' (WinRel co) ws →
      (∀ w ∈ ws, w.1 ≤ w.2 ∧ w.2 ≤ sumLen dropped + total ∧ w.2 - w.1 ≤ cs) →
      (∀ w, ws.getLast? = some w → w.1 ≤ sumLen dropped ∧ w.2 ≤ sumLen dropped + co) →
      ∃ (ws2 : List (Nat × Nat)) (dropped2 : List Text),
        L = dropped2 ++ (mergeGo cs co [] rest ⟨docs, cd, total⟩).cd ∧
        (mergeGo cs co [] rest ⟨docs, cd, total⟩).total =
          sumLen (mergeGo cs co [] rest ⟨docs, cd, total⟩).cd ∧
        (mergeGo cs co [] rest ⟨docs, cd, total⟩).total ≤ cs ∧
        (mergeGo cs co [] rest ⟨docs, cd, total⟩).docs =
          ws2.map (fun w => jsTrim (seg L.flatten w.1 w.2)) ∧
        List.Chain' (WinRel co) ws2 ∧
        (∀ w ∈ ws2, w.1 ≤ w.2 ∧
          w.2 ≤ sumLen dropped2 + (mergeGo cs co [] rest ⟨docs, cd, total⟩).total ∧
          w.2 - w.1 ≤ cs) ∧
        (∀ w, ws2.getLast? = some w →
          w.1 ≤ sumLen dropped2 ∧ w.2 ≤ sumLen dropped2 + co)
  | [], dropped, cd, docs, ws, total,
      hLeq, hcdlen, _, htot, htcs, hdocs, hchain, hbounds, hlast => by
    rw [mergeGo]
    exact ⟨ws, dropped, by rw [hLeq, List.append_nil], htot, htcs, hdocs, hchain,
      hbounds, hlast⟩
  | d :: rest', dropped, cd, docs, ws, total,
      hLeq, hcdlen, hrestlen, htot, htcs, hdocs, hchain, hbounds, hlast => by
    have hdlen : d.length < cs := hrestlen d (List.mem_cons_self _ _)
    by_cases hcond : total + d.length ≤ cs
    · -- the split fits: no flush, just push
      have hnof := mergeFlush_no cs co [] ⟨docs, cd, total⟩ d.length
        (by simp only [List.length_nil, Nat.mul_zero, Nat.add_zero]; exact hcond)
      rw [mergeGo_cons, hnof]
      simp only [MergeSt_docs, MergeSt_cd, MergeSt_total]
      refine mergeGo_windows cs co L rest' dropped (cd ++ [d]) docs ws
        (total + d.length) ?_ ?_ ?_ ?_ hcond hdocs hchain ?_ ?_
      · rw [hLeq]
        simp [List.append_assoc]
      · intro s hs
        rcases List.mem_append.mp hs with h | h
        · exact hcdlen s h
        · rw [List.mem_singleton.mp h]
          exact hdlen
      · exact fun s hs => hrestlen s (List.mem_cons.mpr (Or.inr hs))
      · rw [sumLen_append, sumLen_cons, sumLen_nil]
        omega
      · intro w hw
        obtain ⟨h1, h2, h3⟩ := hbounds w hw
        exact ⟨h1, by omega, h3⟩
      · intro w hw
        obtain ⟨h1, h2⟩ := hlast w hw
        exact ⟨h1, by omega⟩
    · -- the split does not fit: flush the window, then shift and push
      have hcdne : cd ≠ [] := by
        intro hnil
        rw [hnil, sumLen_nil] at htot
        omega
      have hcdE : cd.isEmpty = false := by
        cases hh : cd.isEmpty
        · rfl
        · exact absurd (List.isEmpty_iff.mp hh) hcdne
      have hfl := mergeFlush_flush_general cs co ⟨docs, cd, total⟩ d.length
        (by simp only [MergeSt_total]; omega) hcdE
      rw [mergeGo_cons, hfl]
      simp only [MergeSt_docs, MergeSt_cd, MergeSt_total]
      obtain ⟨shed, hshed, hT2, hT2co, hT2disj⟩ := shiftLoop_spec cs co d.length cd
        total htot
      have hsumcd : sumLen cd = sumLen shed +
          sumLen (shiftLoop cs co 0 d.length cd total).1 := by
        conv_lhs => rw [hshed]
        rw [sumLen_append]
      have hLeq2 : L = (dropped ++ shed) ++
          ((shiftLoop cs co 0 d.length cd total).1 ++ [d]) ++ rest' := by
        rw [hLeq]
        nth_rewrite 1 [hshed]
        simp [List.append_assoc]
      have hcd2len : ∀ s ∈ (shiftLoop cs co 0 d.length cd total).1 ++ [d],
          s.length < cs := by
        intro s hs
        rcases List.mem_append.mp hs with h | h
        · exact hcdlen s (by rw [hshed]; exact List.mem_append.mpr (Or.inr h))
        · rw [List.mem_singleton.mp h]
          exact hdlen
      have htot2 : (shiftLoop cs co 0 d.length cd total).2 + d.length =
          sumLen ((shiftLoop cs co 0 d.length cd total).1 ++ [d]) := by
        rw [sumLen_append, sumLen_cons, sumLen_nil, hT2]
        omega
      have htcs2 : (shiftLoop cs co 0 d.length cd total).2 + d.length ≤ cs := by
        rcases hT2disj with h | h
        · exact h
        · omega
      have hdrop2 : sumLen (dropped ++ shed) +
          (shiftLoop cs co 0 d.length cd total).2 = sumLen dropped + total := by
        have e1 := sumLen_append dropped shed
        omega
      by_cases hdoc : (jsTrim cd.flatten).isEmpty = true
      · rw [if_pos hdoc]
        refine mergeGo_windows cs co L rest' (dropped ++ shed)
          ((shiftLoop cs co 0 d.length cd total).1 ++ [d]) docs ws
          ((shiftLoop cs co 0 d.length cd total).2 + d.length)
          hLeq2 hcd2len
          (fun s hs => hrestlen s (List.mem_cons.mpr (Or.inr hs)))
          htot2 htcs2 hdocs hchain ?_ ?_
        · intro w hw
          obtain ⟨h1, h2, h3⟩ := hbounds w hw
          exact ⟨h1, by omega, h3⟩
        · intro w hw
          obtain ⟨h1, h2⟩ := hlast w hw
          constructor
          · calc w.1 ≤ sumLen dropped := h1
              _ ≤ sumLen (dropped ++ shed) := by rw [sumLen_append]; omega
          · have : sumLen dropped ≤ sumLen (dropped ++ shed) := by
              rw [sumLen_append]; omega
            omega
      · rw [if_neg hdoc]
        have hdocval : jsTrim cd.flatten =
            jsTrim (seg L.flatten (sumLen dropped) (sumLen dropped + total)) := by
          rw [hLeq, List.flatten_append, List.flatten_append]
          rw [show sumLen dropped = dropped.flatten.length from
            (length_flatten_sumLen dropped).symm]
          rw [show total = cd.flatten.length from by
            rw [length_flatten_sumLen]; exact htot]
          rw [List.append_assoc, seg_middle]
        refine mergeGo_windows cs co L rest' (dropped ++ shed)
          ((shiftLoop cs co 0 d.length cd total).1 ++ [d])
          (docs ++ [jsTrim cd.flatten])
          (ws ++ [(sumLen dropped, sumLen dropped + total)])
          ((shiftLoop cs co 0 d.length cd total).2 + d.length)
          hLeq2 hcd2len
          (fun s hs => hrestlen s (List.mem_cons.mpr (Or.inr hs)))
          htot2 htcs2 ?_ ?_ ?_ ?_
        · rw [List.map_append, hdocs, hdocval]
          rfl
        · rw [List.chain'_append]
          refine ⟨hchain, List.chain'_singleton _, ?_⟩
          intro x hx y hy
          rw [List.head?_cons, Option.mem_some_iff] at hy
          obtain ⟨hx1, hx2⟩ := hlast x (Option.mem_def.mp hx)
          subst hy
          exact ⟨hx1, hx2⟩
        · intro w hw
          rcases List.mem_append.mp hw with h | h
          · obtain ⟨h1, h2, h3⟩ := hbounds w h
            exact ⟨h1, by omega, h3⟩
          · have hww := List.mem_singleton.mp h
            subst hww
            have e1 := sumLen_append dropped shed
            refine ⟨?_, ?_, ?_⟩ <;> (dsimp only; omega)
        · intro w hw
          rw [List.getLast?_concat] at hw
          have hww : w = (sumLen dropped, sumLen dropped + total) :=
            (Option.some.injEq _ _).mp hw.symm
          subst hww
          have e1 := sumLen_append dropped shed
          refine ⟨?_, ?_⟩ <;> (dsimp only; omega)

/-- The chunk list is a list of trims of contiguous windows of the source text t:
consecutive windows overlap by at most co characters and no window is wider than cs. -/
def Windowed (cs co : Nat) (t : Text) (chunks : List Text) : Prop :=
  ∃ ws : List (Nat × Nat),
    chunks = ws.map (fun w => jsTrim (seg t w.1 w.2)) ∧
    List.Chain' (WinRel co) ws ∧
    ∀ w ∈ ws, w.1 ≤ w.2 ∧ w.2 ≤ t.length ∧ w.2 - w.1 ≤ cs

theorem seg_suffix (A B : Text) :
    seg (A ++ B) A.length (A.length + B.length) = B := by
  have h := seg_middle A B []
  rwa [List.append_nil] at h

theorem seg_length_le (t : Text) (a b : Nat) : (seg t a b).length ≤ b - a := by
  rw [seg]
  exact List.length_take_le _ _

theorem mergeSplits_eq (cs co : Nat) (sep : Text) (splits : List Text) :
    mergeSplits cs co sep splits =
      (if (joinDocs sep (mergeGo cs co sep splits ⟨[], [], 0⟩).cd).isEmpty
       then (mergeGo cs co sep splits ⟨[], [], 0⟩).docs
       else (mergeGo cs co sep splits ⟨[], [], 0⟩).docs ++
         [joinDocs sep (mergeGo cs co sep splits ⟨[], [], 0⟩).cd]) := rfl

/-- mergeSplits with the empty separator emits trims of contiguous windows of the
concatenated splits, consecutive windows overlapping by at most co, each at most cs
wide, provided every split is shorter than cs. -/
theorem mergeSplits_windows (cs co : Nat) (splits : List Text)
    (hlen : ∀ s ∈ splits, s.length < cs) :
    Windowed cs co splits.flatten (mergeSplits cs co [] splits) := by
  obtain ⟨ws2, dropped2, h1, h2, h3, h4, h5, h6, h7⟩ :=
    mergeGo_windows cs co splits splits [] [] [] [] 0
      (by simp) (by simp) hlen rfl (Nat.zero_le cs) rfl List.chain'_nil
      (by simp) (by simp)
  have hflat : splits.flatten.length = sumLen dropped2 +
      (mergeGo cs co [] splits ⟨[], [], 0⟩).total := by
    rw [length_flatten_sumLen, h2]
    conv_lhs => rw [h1]
    rw [sumLen_append]
  rw [mergeSplits_eq, joinDocs_nil_sep]
  by_cases hde : (jsTrim (mergeGo cs co [] splits ⟨[], [], 0⟩).cd.flatten).isEmpty
  · rw [if_pos hde]
    refine ⟨ws2, h4, h5, ?_⟩
    intro w hw
    obtain ⟨b1, b2, b3⟩ := h6 w hw
    exact ⟨b1, by omega, b3⟩
  · rw [if_neg hde]
    have hsf : splits.flatten = dropped2.flatten ++
        (mergeGo cs co [] splits ⟨[], [], 0⟩).cd.flatten := by
      conv_lhs => rw [h1]
      rw [List.flatten_append]
    have hv : jsTrim (mergeGo cs co [] splits ⟨[], [], 0⟩).cd.flatten =
        jsTrim (seg splits.flatten (sumLen dropped2)
          (sumLen dropped2 + (mergeGo cs co [] splits ⟨[], [], 0⟩).total)) := by
      rw [hsf,
        show sumLen dropped2 = dropped2.flatten.length from
          (length_flatten_sumLen dropped2).symm,
        show (mergeGo cs co [] splits ⟨[], [], 0⟩).total =
            (mergeGo cs co [] splits ⟨[], [], 0⟩).cd.flatten.length from by
          rw [length_flatten_sumLen]; exact h2,
        seg_suffix]
    refine ⟨ws2 ++ [(sumLen dropped2, sumLen dropped2 +
      (mergeGo cs co [] splits ⟨[], [], 0⟩).total)], ?_, ?_, ?_⟩
    · rw [List.map_append, h4, hv]
      rfl
    · rw [List.chain'_append]
      refine ⟨h5, List.chain'_singleton _, ?_⟩
      intro x hx y hy
      rw [List.head?_cons, Option.mem_some_iff] at hy
      obtain ⟨hx1, hx2⟩ := h7 x (Option.mem_def.mp hx)
      subst hy
      exact ⟨hx1, hx2⟩
    · intro w hw
      rcases List.mem_append.mp hw with h | h
      · obtain ⟨b1, b2, b3⟩ := h6 w h
        exact ⟨b1, by omega, b3⟩
      · have hww := List.mem_singleton.mp h
        subst hww
        refine ⟨?_, ?_, ?_⟩ <;> (dsimp only; omega)

theorem mem_of_getLast?_mem {α : Type} {l : List α} {x : α} (h : x ∈ l.getLast?) :
    x ∈ l := by
  obtain ⟨hne, hx⟩ := List.mem_getLast?_eq_getLast h
  rw [hx]
  exact List.getLast_mem hne

/-- Chunks windowed over two texts concatenate to chunks windowed over the
concatenation: the second text's windows are shifted past the first text. -/
theorem Windowed_append (cs co : Nat) (A B : Text) (ca cb : List Text)
    (hA : Windowed cs co A ca) (hB : Windowed cs co B cb) :
    Windowed cs co (A ++ B) (ca ++ cb) := by
  obtain ⟨wsA, haeq, hachain, habd⟩ := hA
  obtain ⟨wsB, hbeq, hbchain, hbbd⟩ := hB
  refine ⟨wsA ++ wsB.map (fun w => (A.length + w.1, A.length + w.2)), ?_, ?_, ?_⟩
  · rw [List.map_append]
    congr 1
    · rw [haeq]
      refine List.map_congr_left ?_
      intro w hw
      obtain ⟨b1, b2, b3⟩ := habd w hw
      exact congrArg jsTrim (seg_append_left A B w.1 w.2 b2).symm
    · rw [hbeq, List.map_map]
      refine List.map_congr_left ?_
      intro w hw
      dsimp only [Function.comp]
      rw [seg_shift]
  · rw [List.chain'_append]
    refine ⟨hachain, ?_, ?_⟩
    · rw [List.chain'_map]
      refine hbchain.imp ?_
      intro a b hab
      obtain ⟨h1, h2⟩ := hab
      refine ⟨?_, ?_⟩ <;> (dsimp only; omega)
    · intro x hx y hy
      obtain ⟨b1, b2, b3⟩ := habd x (mem_of_getLast?_mem hx)
      cases wsB with
      | nil => rw [List.map_nil, List.head?_nil] at hy; exact absurd hy (by simp)
      | cons w0 rest =>
        rw [List.map_cons, List.head?_cons, Option.mem_some_iff] at hy
        subst hy
        refine ⟨?_, ?_⟩ <;> (dsimp only; omega)
  · intro w hw
    rcases List.mem_append.mp hw with h | h
    · obtain ⟨b1, b2, b3⟩ := habd w h
      rw [List.length_append]
      exact ⟨b1, by omega, b3⟩
    · obtain ⟨w0, hw0, hshift⟩ := List.mem_map.mp h
      obtain ⟨b1, b2, b3⟩ := hbbd w0 hw0
      subst hshift
      rw [List.length_append]
      refine ⟨?_, ?_, ?_⟩ <;> (dsimp only; omega)

/-- Windowed chunk lists over a list of blocks glue to a Windowed chunk list over the
concatenation of the blocks' source texts. -/
theorem Windowed_blocks (cs co : Nat) {α : Type} (src : α → Text) (f : α → List Text) :
    ∀ blocks : List α,
      (∀ g ∈ blocks, Windowed cs co (src g) (f g)) →
      Windowed cs co (blocks.map src).flatten (blocks.flatMap f)
  | [], _ => by
    rw [List.map_nil, List.flatten_nil, List.flatMap_nil]
    exact ⟨[], rfl, List.chain'_nil, by simp⟩
  | g :: rest, h => by
    rw [List.map_cons, List.flatten_cons, List.flatMap_cons]
    exact Windowed_append cs co (src g) (rest.map src).flatten (f g) (rest.flatMap f)
      (h g (List.mem_cons_self _ _))
      (Windowed_blocks cs co src f rest
        (fun g2 hg2 => h g2 (List.mem_cons.mpr (Or.inr hg2))))

/-- The splits a groupSplits block carries: the run for a good run, the single oversized
split otherwise. -/
def blockContents : List Text ⊕ Text → List Text
  | Sum.inl run => run
  | Sum.inr s => [s]

/-- groupSplits partitions the split list: its blocks' contents concatenate back to it. -/
theorem groupSplits_flatMap (cs : Nat) :
    ∀ l : List Text, (groupSplits cs l).flatMap blockContents = l
  | [] => rfl
  | s :: rest => by
    have ih := groupSplits_flatMap cs rest
    rw [groupSplits]
    by_cases hs : s.length < cs
    · rw [if_pos hs]
      split
      · rename_i run out hg
        rw [hg] at ih
        simp only [List.flatMap_cons, blockContents, List.cons_append] at ih ⊢
        rw [ih]
      · rename_i hne
        simp only [List.flatMap_cons, blockContents, List.singleton_append]
        rw [ih]
    · rw [if_neg hs]
      simp only [List.flatMap_cons, blockContents, List.singleton_append]
      rw [ih]

/-- Every split inside a good run of groupSplits is shorter than cs. -/
theorem groupSplits_inl_lt (cs : Nat) :
    ∀ l run : List Text, Sum.inl run ∈ groupSplits cs l → ∀ s ∈ run, s.length < cs
  | [], run, hmem => absurd hmem (by rw [groupSplits]; exact List.not_mem_nil _)
  | s0 :: rest, run, hmem => by
    rw [groupSplits] at hmem
    by_cases hs : s0.length < cs
    · rw [if_pos hs] at hmem
      revert hmem
      split
      · rename_i run0 out hg
        intro hmem
        rcases List.mem_cons.mp hmem with h | h
        · injection h with h
          subst h
          intro s hsmem
          rcases List.mem_cons.mp hsmem with h2 | h2
          · rw [h2]; exact hs
          · have hmm : Sum.inl run0 ∈ groupSplits cs rest := by
              rw [hg]; exact List.mem_cons_self _ _
            exact groupSplits_inl_lt cs rest run0 hmm s h2
        · have hmm : Sum.inl run ∈ groupSplits cs rest := by
            rw [hg]; exact List.mem_cons.mpr (Or.inr h)
          exact groupSplits_inl_lt cs rest run hmm
      · rename_i hne
        intro hmem
        rcases List.mem_cons.mp hmem with h | h
        · injection h with h
          subst h
          intro s hsmem
          rw [List.mem_singleton.mp hsmem]
          exact hs
        · exact groupSplits_inl_lt cs rest run h
    · rw [if_neg hs] at hmem
      rcases List.mem_cons.mp hmem with h | h
      · exact absurd h (by simp)
      · exact groupSplits_inl_lt cs rest run h

/-- In the separator-choice loop, when the empty separator is in the list and the loop
reports no remaining separators, the chosen separator is the empty one. -/
theorem chooseSepAux_none_empty (t dflt : Text) :
    ∀ l : List Text, [] ∈ l → (chooseSepAux t dflt l).2 = none →
      (chooseSepAux t dflt l).1 = []
  | [], hmem, _ => absurd hmem (List.not_mem_nil _)
  | s :: rest, hmem, hnone => by
    rw [chooseSepAux] at hnone ⊢
    by_cases hse : s.isEmpty
    · rw [if_pos hse]
    · rw [if_neg hse] at hnone ⊢
      have hmem2 : [] ∈ rest := by
        rcases List.mem_cons.mp hmem with h | h
        · exact absurd h.symm (by simpa [List.isEmpty_iff] using hse)
        · exact h
      by_cases hoc : occurs s t
      · rw [if_pos hoc] at hnone
        exact absurd hnone (by simp)
      · rw [if_neg hoc] at hnone ⊢
        exact chooseSepAux_none_empty t dflt rest hmem2 hnone

/-- In the separator-choice loop, when the empty separator is in the list and the loop
reports remaining separators, the empty separator is among them and they are fewer. -/
theorem chooseSepAux_some_mem (t dflt : Text) :
    ∀ (l ns : List Text), [] ∈ l → (chooseSepAux t dflt l).2 = some ns →
      [] ∈ ns ∧ ns.length < l.length
  | [], ns, hmem, _ => absurd hmem (List.not_mem_nil _)
  | s :: rest, ns, hmem, hsome => by
    rw [chooseSepAux] at hsome
    by_cases hse : s.isEmpty
    · rw [if_pos hse] at hsome
      exact absurd hsome (by simp)
    · rw [if_neg hse] at hsome
      have hmem2 : [] ∈ rest := by
        rcases List.mem_cons.mp hmem with h | h
        · exact absurd h.symm (by simpa [List.isEmpty_iff] using hse)
        · exact h
      by_cases hoc : occurs s t
      · rw [if_pos hoc] at hsome
        have hrs : rest = ns := by simpa using hsome
        subst hrs
        exact ⟨hmem2, by rw [List.length_cons]; omega⟩
      · rw [if_neg hoc] at hsome
        obtain ⟨h1, h2⟩ := chooseSepAux_some_mem t dflt rest ns hmem2 hsome
        exact ⟨h1, by rw [List.length_cons]; omega⟩

theorem chooseSep_none_empty (seps : List Text) (t : Text) (hmem : [] ∈ seps)
    (hnone : (chooseSep seps t).2 = none) : (chooseSep seps t).1 = [] :=
  chooseSepAux_none_empty t _ seps hmem hnone

theorem chooseSep_some_mem (seps : List Text) (t : Text) (ns : List Text)
    (hmem : [] ∈ seps) (hsome : (chooseSep seps t).2 = some ns) :
    [] ∈ ns ∧ ns.length < seps.length :=
  chooseSepAux_some_mem t _ seps ns hmem hsome

theorem flatten_map_flatten : ∀ L : List (List Text),
    (L.map List.flatten).flatten = L.flatten.flatten
  | [] => rfl
  | b :: L => by
    rw [List.map_cons, List.flatten_cons, List.flatten_cons, List.flatten_append,
      flatten_map_flatten L]

theorem flatMap_eq_flatten_map {α β : Type} (f : α → List β) (l : List α) :
    l.flatMap f = (l.map f).flatten := by
  induction l with
  | nil => rfl
  | cons a l ih => rw [List.flatMap_cons, List.map_cons, List.flatten_cons, ih]

/-- The recursive splitter only emits trims of contiguous windows of its input text:
consecutive windows overlap by at most co and none is wider than cs, provided cs is at
least 2 and the empty separator is among the separators (as it is for every separator
list RecursiveCharacterTextSplitter.fromLanguage produces). -/
theorem splitTextRec_windows (cs co : Nat) (hcs : 2 ≤ cs) :
    ∀ (n : Nat) (seps : List Text), seps.length ≤ n → [] ∈ seps → ∀ text : Text,
      Windowed cs co text (splitTextRec cs co seps text)
  | 0, seps, hn, hmem, _ => by
    have : 0 < seps.length := List.length_pos.mpr (List.ne_nil_of_mem hmem)
    omega
  | n + 1, seps, hn, hmem, text => by
    rw [splitTextRec.eq_def]
    cases hch : (chooseSep seps text).2 with
    | none =>
      have hsep : (chooseSep seps text).1 = [] := chooseSep_none_empty seps text hmem hch
      rw [hsep, splitOnSeparator_nil]
      cases text with
      | nil =>
        rw [List.map_nil, groupSplits, List.flatMap_nil]
        exact ⟨[], rfl, List.chain'_nil, by simp⟩
      | cons c t0 =>
        have hall : ∀ s ∈ (c :: t0).map (fun ch => [ch]), s.length < cs := by
          intro s hs
          obtain ⟨ch, _, hch2⟩ := List.mem_map.mp hs
          rw [← hch2, List.length_cons, List.length_nil]
          omega
        rw [groupSplits_all_good cs _ (by simp) hall]
        rw [List.flatMap_cons, List.flatMap_nil, List.append_nil]
        show Windowed cs co (c :: t0) (mergeSplits cs co [] ((c :: t0).map fun ch => [ch]))
        have h := mergeSplits_windows cs co ((c :: t0).map fun ch => [ch]) hall
        rw [flatten_map_singleton] at h
        exact h
    | some ns =>
      obtain ⟨hnsmem, hnslen⟩ := chooseSep_some_mem seps text ns hmem hch
      have hsrc : ((groupSplits cs (splitOnSeparator (chooseSep seps text).1 text)).map
          (fun g => (blockContents g).flatten)).flatten = text := by
        have hcomp : (fun g : List Text ⊕ Text => (blockContents g).flatten) =
            (List.flatten ∘ blockContents) := rfl
        rw [hcomp, ← List.map_map, flatten_map_flatten, ← flatMap_eq_flatten_map,
          groupSplits_flatMap, splitOnSeparator_flatten]
      have main : ∀ G : List Text ⊕ Text → List Text,
          (∀ g ∈ groupSplits cs (splitOnSeparator (chooseSep seps text).1 text),
            Windowed cs co ((blockContents g).flatten) (G g)) →
          Windowed cs co text
            ((groupSplits cs (splitOnSeparator (chooseSep seps text).1 text)).flatMap G) := by
        intro G hG
        have h := Windowed_blocks cs co (fun g => (blockContents g).flatten) G
          (groupSplits cs (splitOnSeparator (chooseSep seps text).1 text)) hG
        rw [hsrc] at h
        exact h
      refine main _ ?_
      intro g hg
      cases g with
      | inl run =>
        show Windowed cs co ((blockContents (Sum.inl run)).flatten)
          (mergeSplits cs co [] run)
        exact mergeSplits_windows cs co run
          (groupSplits_inl_lt cs (splitOnSeparator (chooseSep seps text).1 text) run hg)
      | inr s =>
        show Windowed cs co ((blockContents (Sum.inr s)).flatten) (splitTextRec cs co ns s)
        have h := splitTextRec_windows cs co hcs n ns (by omega) hnsmem s
        rw [blockContents, flatten_singleton]
        exact h

/-! Claim theorems. -/

/-- C1: for a non-empty chunk list, if the store's record count is positive the populator
performs zero upsert calls and returns the skipped-already-populated status; hence a
second invocation against the same non-empty store performs no additional writes. -/
theorem c1_populator_skips_nonempty_store (docs : List Doc) (count : Option Nat)
    (hdocs : docs ≠ []) (hcount : 0 < count.getD 0) :
    (vectorizeDocuments docs count).upserts = [] ∧
    (vectorizeDocuments docs count).status = skippedStatus := by
  have h1 : docs.isEmpty = false := by simpa using hdocs
  simp [vectorizeDocuments, h1, hcount]

/-- Witness for C1 at a concrete chunk list and store count. -/
theorem c1_witness :
    (vectorizeDocuments [⟨['a'], []⟩] (some 3)).upserts = [] ∧
    (vectorizeDocuments [⟨['a'], []⟩] (some 3)).status = skippedStatus :=
  c1_populator_skips_nonempty_store [⟨['a'], []⟩] (some 3) (by decide) (by decide)

/-- C2 as stated is false: the chunker is configured with the HTML separator hierarchy,
not paragraph > sentence > word > character — on a two-paragraph plain text of 602
characters the code's splitter cuts across the paragraph boundary (its first chunk is the
first 500 characters, containing the blank line), while the spec-described splitter
splits at the paragraph boundary into the two 300-character paragraphs. -/
theorem c2_counterexample :
    htmlSeparators ≠ specBoundarySeparators ∧
    htmlSplitText c2Text ≠ specSplitText c2Text := by
  constructor
  · decide
  · rw [htmlSplitText_c2Text, specSplitText_c2Text]
    intro h
    injection h with h1 h2
    have hlen := congrArg List.length h1
    simp only [List.length_append, List.length_cons, List.length_replicate] at hlen
    omega

/-- The two-paragraph counterexample text as a document, for the amended C2 witness. -/
def c2Doc : Doc := ⟨c2Text, []⟩

/-- C2 (amended): with chunkSize 500 and chunkOverlap 100, every chunk splitDocuments
produces from a document is the whitespace-trim of a contiguous window of that
document's text; the windows are at most 500 characters wide (so every chunk is at most
500 characters long), consecutive windows of the same document overlap by at most 100
characters, and the recursive boundary hierarchy is the HTML tag hierarchy of
fromLanguage html, not paragraph > sentence > word > character. -/
theorem c2_amended_chunk_windows (docs : List Doc) (d : Doc) (hd : d ∈ docs) :
    (∃ ws : List (Nat × Nat),
      htmlSplitText d.pageContent =
        ws.map (fun w => jsTrim (seg d.pageContent w.1 w.2)) ∧
      List.Chain' (WinRel chunkOverlap) ws ∧
      ∀ w ∈ ws, w.1 ≤ w.2 ∧ w.2 ≤ d.pageContent.length ∧ w.2 - w.1 ≤ chunkSize) ∧
    (∀ c ∈ splitDocuments docs, c.pageContent.length ≤ chunkSize ∧
      ∃ d2 ∈ docs, c.pageContent ∈ htmlSplitText d2.pageContent ∧
        c.metadata = d2.metadata) := by
  have hwin : ∀ t : Text, Windowed chunkSize chunkOverlap t (htmlSplitText t) := by
    intro t
    rw [htmlSplitText]
    exact splitTextRec_windows chunkSize chunkOverlap (by decide) htmlSeparators.length
      htmlSeparators le_rfl (by decide) t
  constructor
  · exact hwin d.pageContent
  · intro c hc
    rw [splitDocuments] at hc
    obtain ⟨d2, hd2, hc2⟩ := List.mem_flatMap.mp hc
    obtain ⟨t, ht, hct⟩ := List.mem_map.mp hc2
    obtain ⟨ws, hmap, hchain, hbd⟩ := hwin d2.pageContent
    refine ⟨?_, d2, hd2, ?_, ?_⟩
    · rw [hmap] at ht
      obtain ⟨w, hw, hwt⟩ := List.mem_map.mp ht
      obtain ⟨b1, b2, b3⟩ := hbd w hw
      rw [← hct]
      show t.length ≤ chunkSize
      rw [← hwt]
      calc (jsTrim (seg d2.pageContent w.1 w.2)).length
          ≤ (seg d2.pageContent w.1 w.2).length := jsTrim_length_le _
        _ ≤ w.2 - w.1 := seg_length_le _ _ _
        _ ≤ chunkSize := b3
    · rw [← hct]
      exact ht
    · rw [← hct]

/-- Witness for the amended C2 at the concrete two-paragraph document. -/
theorem c2_amended_witness :
    (c2Doc ∈ [c2Doc]) ∧
    ((∃ ws : List (Nat × Nat),
      htmlSplitText c2Doc.pageContent =
        ws.map (fun w => jsTrim (seg c2Doc.pageContent w.1 w.2)) ∧
      List.Chain' (WinRel chunkOverlap) ws ∧
      ∀ w ∈ ws, w.1 ≤ w.2 ∧ w.2 ≤ c2Doc.pageContent.length ∧ w.2 - w.1 ≤ chunkSize) ∧
    (∀ c ∈ splitDocuments [c2Doc], c.pageContent.length ≤ chunkSize ∧
      ∃ d2 ∈ [c2Doc], c.pageContent ∈ htmlSplitText d2.pageContent ∧
        c.metadata = d2.metadata)) :=
  ⟨List.mem_cons_self _ _,
   c2_amended_chunk_windows [c2Doc] c2Doc (List.mem_cons_self _ _)⟩

/-- C3 as stated is false: a chunk whose metadata holds a raw temporal value under a key
other than date is upserted with the raw temporal object intact. -/
theorem c3_counterexample :
    ¬ (∀ (docs : List Doc) (count : Option Nat) (b : List Doc) (d : Doc)
        (k iso : String), b ∈ (vectorizeDocuments docs count).upserts → d ∈ b →
        (k, MetaVal.date iso) ∉ d.metadata) := by
  intro h
  exact h [⟨['x'], [("modifiedAt", MetaVal.date "2020-05-17T00:00:00.000Z")]⟩] none
    [⟨['x'], [("modifiedAt", MetaVal.date "2020-05-17T00:00:00.000Z")]⟩]
    ⟨['x'], [("modifiedAt", MetaVal.date "2020-05-17T00:00:00.000Z")]⟩
    "modifiedAt" "2020-05-17T00:00:00.000Z" (by decide) (by decide) (by decide)

/-- C3 amended: when the populator writes (non-empty input, zero record count), the
upserted chunks are exactly the sanitized input chunks in order, where sanitization
converts a raw temporal value stored under the metadata key date to its ISO-8601 string
and leaves every other field unchanged; the key date never carries a raw temporal object
after sanitization. -/
theorem c3_amended_date_field_sanitized (docs : List Doc) (count : Option Nat)
    (h1 : docs ≠ []) (h2 : count.getD 0 = 0) :
    (vectorizeDocuments docs count).upserts.flatten = docs.map sanitizeDoc ∧
    ∀ d ∈ docs, ∀ iso : String,
      (("date", MetaVal.date iso) ∈ d.metadata →
        ("date", MetaVal.str iso) ∈ (sanitizeDoc d).metadata) ∧
      ("date", MetaVal.date iso) ∉ (sanitizeDoc d).metadata := by
  constructor
  · have he : docs.isEmpty = false := by simpa using h1
    simp only [vectorizeDocuments, he, h2, Bool.false_eq_true, if_false, gt_iff_lt,
      lt_irrefl]
    rw [← List.map_flatten, batches100_flatten]
  · intro d _ iso
    exact ⟨sanitizeDoc_mem_str d iso, sanitizeDoc_not_mem_date d iso⟩

/-- Witness for the amended C3 at a concrete chunk carrying a raw date. -/
theorem c3_amended_witness :
    (vectorizeDocuments [⟨['x'], [("date", MetaVal.date "2021-01-02T03:04:05.000Z")]⟩]
        none).upserts.flatten =
      [sanitizeDoc ⟨['x'], [("date", MetaVal.date "2021-01-02T03:04:05.000Z")]⟩] ∧
    ("date", MetaVal.str "2021-01-02T03:04:05.000Z") ∈
      (sanitizeDoc ⟨['x'], [("date", MetaVal.date "2021-01-02T03:04:05.000Z")]⟩).metadata :=
  ⟨(c3_amended_date_field_sanitized _ none (by decide) (by decide)).1,
   ((c3_amended_date_field_sanitized
       [⟨['x'], [("date", MetaVal.date "2021-01-02T03:04:05.000Z")]⟩] none (by decide)
       (by decide)).2 _ (List.mem_cons_self _ _) "2021-01-02T03:04:05.000Z").1
     (by decide)⟩

/-- C4: every passage kept in the context is longer than 30 characters, the kept passages
are a subsequence of the trimmed retrieved texts in retrieval order, the context is their
blank-line join, and a passage of length at most 30 never survives the filter. -/
theorem c4_context_filter (texts : List Text) :
    (∀ t ∈ keptPassages texts, 30 < t.length) ∧
    List.Sublist (keptPassages texts) (texts.map jsTrim) ∧
    assembleContext texts = List.intercalate contextSep (keptPassages texts) ∧
    ∀ t ∈ texts, t.length ≤ 30 → jsTrim t ∉ keptPassages texts := by
  refine ⟨?_, List.filter_sublist _, rfl, ?_⟩
  · intro t ht
    have := (List.mem_filter.mp ht).2
    simpa using this
  · intro t _ hlen hmem
    have h1 := (List.mem_filter.mp hmem).2
    have h2 : (jsTrim t).length ≤ t.length := jsTrim_length_le t
    simp only [decide_eq_true_eq] at h1
    omega

/-- Witness for C4: a short passage does not survive the filter while a long one does. -/
theorem c4_witness :
    jsTrim " tiny ".toList ∉
      keptPassages ["this passage is long enough to survive".toList, " tiny ".toList] ∧
    (∀ t ∈ keptPassages ["this passage is long enough to survive".toList,
        " tiny ".toList], 30 < t.length) :=
  ⟨(c4_context_filter _).2.2.2 " tiny ".toList (by decide) (by decide),
   (c4_context_filter _).1⟩

/-- C5: starting from the empty session, N successful answer() calls leave exactly 2N
messages alternating human/assistant starting with a human message; within each call the
human question is appended before the generated answer. -/
theorem c5_history_pairs (calls : List (String × ChatEnv))
    (hok : ∀ c ∈ calls, ∃ a, c.2.genResult = Except.ok a) :
    (runSession calls).length = 2 * calls.length ∧
    alternating (runSession calls) = true ∧
    ∀ (env : ChatEnv) (hist : List ChatMsg) (q a : String),
      env.genResult = Except.ok a →
      (chatWithHistory env hist q).newHistory = hist ++ [ChatMsg.human q, ChatMsg.ai a] := by
  have h := runSessionFrom_ok calls [] hok
  exact ⟨by simpa [runSession] using h.1, h.2 rfl,
    fun env hist q a ha => chatWithHistory_ok env hist q a ha⟩

/-- Witness for C5 at two concrete successful calls. -/
theorem c5_witness :
    (runSession [("q1", ⟨some 1, [], [], Except.ok "a1"⟩),
        ("q2", ⟨some 1, [], [], Except.ok "a2"⟩)]).length = 2 * 2 ∧
    alternating (runSession [("q1", ⟨some 1, [], [], Except.ok "a1"⟩),
        ("q2", ⟨some 1, [], [], Except.ok "a2"⟩)]) = true := by
  have h := c5_history_pairs
    [("q1", ⟨some 1, [], [], Except.ok "a1"⟩), ("q2", ⟨some 1, [], [], Except.ok "a2"⟩)]
    (by
      intro c hc
      rcases List.mem_cons.mp hc with h1 | h1
      · subst h1; exact ⟨"a1", rfl⟩
      · rcases List.mem_cons.mp h1 with h2 | h2
        · subst h2; exact ⟨"a2", rfl⟩
        · exact absurd h2 (List.not_mem_nil _))
  exact ⟨h.1, h.2.1⟩

/-- C6: if the generation chain fails, the exception propagates and the conversation
history is left unchanged — no question/answer pair is appended. -/
theorem c6_generation_failure_preserves_history (env : ChatEnv) (hist : List ChatMsg)
    (q e : String) (herr : env.genResult = Except.error e) :
    (chatWithHistory env hist q).newHistory = hist ∧
    (chatWithHistory env hist q).result = Except.error e := by
  simp [chatWithHistory, herr]

/-- Witness for C6 at a concrete failing generation. -/
theorem c6_witness :
    (chatWithHistory ⟨some 1, [], [], Except.error "model down"⟩
      [ChatMsg.human "x", ChatMsg.ai "y"] "q").newHistory =
      [ChatMsg.human "x", ChatMsg.ai "y"] ∧
    (chatWithHistory ⟨some 1, [], [], Except.error "model down"⟩
      [ChatMsg.human "x", ChatMsg.ai "y"] "q").result = Except.error "model down" :=
  c6_generation_failure_preserves_history _ _ "q" "model down" rfl

/-- C7: the populator's status is exactly one of the three terminal values, each
characterizing its input condition: empty-input for an empty chunk list,
skipped-already-populated for a positive record count, completed otherwise. -/
theorem c7_populator_status_trichotomy (docs : List Doc) (count : Option Nat) :
    ((vectorizeDocuments docs count).status = emptyInputStatus ∨
     (vectorizeDocuments docs count).status = skippedStatus ∨
     (vectorizeDocuments docs count).status = completedStatus) ∧
    ((vectorizeDocuments docs count).status = emptyInputStatus ↔ docs = []) ∧
    ((vectorizeDocuments docs count).status = skippedStatus ↔
      docs ≠ [] ∧ 0 < count.getD 0) ∧
    ((vectorizeDocuments docs count).status = completedStatus ↔
      docs ≠ [] ∧ count.getD 0 = 0) := by
  by_cases hd : docs = []
  · subst hd
    simp [vectorizeDocuments, emptyInputStatus, skippedStatus, completedStatus]
  · have he : docs.isEmpty = false := by simpa using hd
    by_cases hc : 0 < count.getD 0
    · simp [vectorizeDocuments, he, hc, hd, emptyInputStatus, skippedStatus,
        completedStatus]
      omega
    · simp [vectorizeDocuments, he, hc, hd, emptyInputStatus, skippedStatus,
        completedStatus]
      omega

/-- Witness for C7: the three statuses at three concrete inputs. -/
theorem c7_witness :
    (vectorizeDocuments [] none).status = emptyInputStatus ∧
    (vectorizeDocuments [⟨['a'], []⟩] (some 2)).status = skippedStatus ∧
    (vectorizeDocuments [⟨['a'], []⟩] none).status = completedStatus :=
  ⟨(c7_populator_status_trichotomy [] none).2.1.mpr rfl,
   (c7_populator_status_trichotomy [⟨['a'], []⟩] (some 2)).2.2.1.mpr
     (by refine ⟨by decide, by decide⟩),
   (c7_populator_status_trichotomy [⟨['a'], []⟩] none).2.2.2.mpr
     (by refine ⟨by decide, by decide⟩)⟩

/-- C8: the retriever is configured with k fixed to 6; against a store holding at least 6
scored passages the query returns exactly 6 results, ordered by descending similarity
score, each being one of the stored passages (so carrying its score and metadata). -/
theorem c8_retriever_returns_top6 (scored : List Passage)
    (h : retrieverK ≤ scored.length) :
    retrieverK = 6 ∧
    (queryTopK scored retrieverK).length = retrieverK ∧
    (queryTopK scored retrieverK).Pairwise (fun a b => b.score ≤ a.score) ∧
    ∀ p ∈ queryTopK scored retrieverK, p ∈ scored := by
  refine ⟨rfl, ?_, ?_, ?_⟩
  · unfold queryTopK
    rw [List.length_take, length_sortByScoreDesc]
    exact Nat.min_eq_left h
  · exact (pairwise_sortByScoreDesc scored).sublist (List.take_sublist _ _)
  · intro p hp
    exact mem_of_mem_sortByScoreDesc p scored
      ((List.take_sublist _ _).mem hp)

/-- Witness for C8 at a concrete store of six scored passages. -/
theorem c8_witness :
    (queryTopK [⟨"p1", 1, []⟩, ⟨"p2", 5, []⟩, ⟨"p3", 3, []⟩, ⟨"p4", 2, []⟩,
        ⟨"p5", 4, []⟩, ⟨"p6", 0, []⟩] retrieverK).length = retrieverK :=
  (c8_retriever_returns_top6 _ (by decide)).2.1

/-- C9: resetChatHistory leaves an empty session history, and a subsequent
chatWithHistory call assembles its generation input with empty prior chat history. -/
theorem c9_reset_clears_history (hist : List ChatMsg) (env : ChatEnv) (q : String) :
    (resetChatHistory hist).1.length = 0 ∧
    (chatWithHistory env (resetChatHistory hist).1 q).genInput.chat_history = [] := by
  rcases henv : env.genResult with e | a <;>
    simp [resetChatHistory, chatWithHistory, henv]

/-- C10: the service performs no validation of the question — for every string, including
the empty one, the generation input is assembled from that question, the bootstrap
population runs whenever the record count is zero, and on success the two messages are
appended; the empty-question short-circuit lives only in the HTTP controller, which
answers with a fixed message without invoking the pipeline. -/
theorem c10_no_question_validation_in_service (env : ChatEnv) (hist : List ChatMsg)
    (q : String) :
    ((chatWithHistory env hist q).genInput.question = q ∧
     (chatWithHistory env hist q).genInput.chat_history = hist ∧
     (chatWithHistory env hist q).genInput.context = assembleContext env.retrieved ∧
     (env.totalRecordCount.getD 0 = 0 →
       (chatWithHistory env hist q).bootstrap =
         some (vectorizeDocuments (splitDocuments env.loadedDocs)
           env.totalRecordCount)) ∧
     (∀ a, env.genResult = Except.ok a →
       (chatWithHistory env hist q).newHistory =
         hist ++ [ChatMsg.human q, ChatMsg.ai a])) ∧
    (askMeController env hist (some "") = ("Please ask a question.", hist, false) ∧
     askMeController env hist none = ("Please ask a question.", hist, false)) ∧
    (q ≠ "" → (askMeController env hist (some q)).2.2 = true) := by
  refine ⟨⟨?_, ?_, ?_, ?_, ?_⟩, ⟨?_, rfl⟩, ?_⟩
  · rcases henv : env.genResult with e | a <;> simp [chatWithHistory, henv]
  · rcases henv : env.genResult with e | a <;> simp [chatWithHistory, henv]
  · rcases henv : env.genResult with e | a <;> simp [chatWithHistory, henv]
  · intro hz
    rcases henv : env.genResult with e | a <;> simp [chatWithHistory, henv, hz]
  · intro a ha
    exact chatWithHistory_ok env hist q a ha
  · simp [askMeController]
  · intro hq
    rcases henv : env.genResult with e | a <;>
      simp [askMeController, hq, chatWithHistory, henv]

/-- Witness for C10: the service processes the empty question and appends both messages,
while the controller short-circuits it; a non-empty question reaches the pipeline. -/
theorem c10_witness :
    (chatWithHistory ⟨some 1, [], [], Except.ok "ok"⟩ [] "").genInput.question = "" ∧
    (chatWithHistory ⟨some 1, [], [], Except.ok "ok"⟩ [] "").newHistory =
      [] ++ [ChatMsg.human "", ChatMsg.ai "ok"] ∧
    (askMeController ⟨some 1, [], [], Except.ok "ok"⟩ [] (some "")).2.2 = false ∧
    (askMeController ⟨some 1, [], [], Except.ok "ok"⟩ [] (some "hi")).2.2 = true := by
  have h := c10_no_question_validation_in_service ⟨some 1, [], [], Except.ok "ok"⟩ [] ""
  have h2 := c10_no_question_validation_in_service ⟨some 1, [], [], Except.ok "ok"⟩ []
    "hi"
  refine ⟨h.1.1, h.1.2.2.2.2 "ok" rfl, ?_, h2.2.2 (by decide)⟩
  rw [h.2.1.1]

end Rag
